import Mathlib

/-!
Verification of the segment-based vector search core.

This file gives a shallow embedding, in Lean, of the parts of the code base
that the checked claims speak about:

  - the filter cardinality estimator (lib/segment/src/index/query_estimator.rs),
  - the chunked mmap vector storage (lib/segment/src/vector_storage/chunked_mmap_vectors.rs),
  - the proxy segment (lib/collection/src/collection_manager/holders/proxy_segment.rs),
  - the segment holder (lib/collection/src/collection_manager/holders/segment_holder.rs),
  - the merge optimizer (lib/collection/src/collection_manager/optimizers/merge_optimizer.rs).

Machine integers (usize, u64) are modelled as Nat: none of the verified
operations can overflow 64 bits on the considered inputs, and unsigned
subtractions that the code performs with saturating_sub are modelled with
truncated Nat subtraction, while an unguarded unsigned subtraction that can
underflow is modelled with an Option result (none for the panic).
Floating point expressions (the estimator computes expected counts through
f64) are modelled by exact rational arithmetic with round-half-up rounding,
which agrees with f64 round-half-away-from-zero on the nonnegative values
produced here.
The plain Segment type (lib/segment/src/segment.rs) is not part of the
sources under verification; where a claim needs its behaviour the model is
derived from the specification and the corresponding definition carries a
doc comment that says so.
-/

namespace QueryEstimator

/-- Model of CardinalityEstimation (lib/segment/src/index/field_index).
Primary clauses are opaque data that the estimator only copies around, so
they are modelled as plain labels. -/
structure CardinalityEstimation where
  primary_clauses : List Nat
  min : Nat
  exp : Nat
  max : Nat
deriving Repr, DecidableEq

/-- Round-half-up of the fraction num / den over the naturals.  This is the
exact-arithmetic counterpart of the f64 rounding performed by the estimator:
for the nonnegative values involved, f64 round (half away from zero) agrees
with floor (x + 1/2), and for x = num / den that floor is (2 num + den) / (2 den). -/
def natRound (num den : Nat) : Nat := (2 * num + den) / (2 * den)

/-- Embedding of adjust_to_available_vectors (query_estimator.rs, lines 48-98).
The code computes
  number_of_deleted_vectors = available_points.saturating_sub(available_vectors),
  min = estimation.min.saturating_sub(number_of_deleted_vectors),
  max = estimation.max.min(available_vectors).min(available_points),
  exp = (estimation.exp as f64 * (available_vectors / available_points).min(1.0)).round().
The f64 expression is modelled exactly: when available_points is not larger
than available_vectors the probability clamps to 1 and exp is unchanged,
otherwise exp is the rounded rational estimation.exp * available_vectors / available_points. -/
def adjust_to_available_vectors (estimation : CardinalityEstimation)
    (available_vectors available_points : Nat) : CardinalityEstimation :=
  if available_points = 0 ∨ available_vectors = 0 then
    { primary_clauses := estimation.primary_clauses, min := 0, exp := 0, max := 0 }
  else
    let number_of_deleted_vectors := available_points - available_vectors
    let adjMin := estimation.min - number_of_deleted_vectors
    let adjMax := min (min estimation.max available_vectors) available_points
    let adjExp := if available_points ≤ available_vectors then estimation.exp
      else natRound (estimation.exp * available_vectors) available_points
    { primary_clauses := estimation.primary_clauses,
      min := adjMin, exp := adjExp, max := adjMax }

/-- Embedding of the i64 fold that combine_must_estimations uses for its min
field (query_estimator.rs, lines 132-137): starting from total, every branch
minimum contributes max(0, acc + min - total). -/
def mustMinFold (mins : List Nat) (total : Nat) : Int :=
  mins.foldl (fun (acc : Int) (x : Nat) => max 0 (acc + (x : Int) - (total : Int))) (total : Int)

/-- Single step of Iterator min_by_key on the exp field: a strictly smaller
key replaces the accumulator, so ties keep the earlier element. -/
def minByKeyStep (acc : Option CardinalityEstimation) (x : CardinalityEstimation) :
    Option CardinalityEstimation :=
  match acc with
  | none => some x
  | some a => if x.exp < a.exp then some x else some a

/-- Embedding of Iterator min_by_key on the exp field: the FIRST element
with the minimal key is kept, as the Rust documentation guarantees. -/
def minByExpFirst (es : List CardinalityEstimation) : Option CardinalityEstimation :=
  es.foldl minByKeyStep none

/-- Embedding of combine_must_estimations (query_estimator.rs, lines 128-161).
The exp field multiplies the per-branch probabilities exp_i / total in f64 and
rounds the product scaled back by total; it is modelled by exact rational
arithmetic.  The primary clauses come from min_by_key over the branches whose
clause list is non-empty. -/
def combine_must_estimations (estimations : List CardinalityEstimation)
    (total : Nat) : CardinalityEstimation :=
  let min_estimation := (mustMinFold (estimations.map (·.min)) total).toNat
  let max_estimation := ((estimations.map (·.max)).min?).getD total
  let exp_estimation_prob : ℚ :=
    (estimations.map (fun x => (x.exp : ℚ) / (total : ℚ))).prod
  let exp_estimation := (round (exp_estimation_prob * (total : ℚ))).toNat
  let clauses :=
    ((minByExpFirst (estimations.filter (fun x => !x.primary_clauses.isEmpty))).map
      (·.primary_clauses)).getD []
  { primary_clauses := clauses,
    min := min_estimation, exp := exp_estimation, max := max_estimation }

/-- Embedding of invert_estimation (query_estimator.rs, lines 234-244).  The
code performs three unguarded usize subtractions total - max, total - exp,
total - min; an underflowing subtraction is a panic in the Rust code and is
modelled by none. -/
def invert_estimation (estimation : CardinalityEstimation) (total : Nat) :
    Option CardinalityEstimation :=
  if estimation.max ≤ total ∧ estimation.exp ≤ total ∧ estimation.min ≤ total then
    some { primary_clauses := [],
           min := total - estimation.max,
           exp := total - estimation.exp,
           max := total - estimation.min }
  else none

namespace NatRound

theorem le_of_mul_le {n d k : Nat} (hd : 0 < d) (h : n ≤ d * k) :
    QueryEstimator.natRound n d ≤ k := by
  unfold QueryEstimator.natRound
  have h2d : 0 < 2 * d := by omega
  have key : 2 * n + d < (k + 1) * (2 * d) := by
    have hexp : (k + 1) * (2 * d) = 2 * (d * k) + 2 * d := by ring
    omega
  have hlt : (2 * n + d) / (2 * d) < k + 1 := (Nat.div_lt_iff_lt_mul h2d).mpr key
  omega

theorem ge_of_mul_le {n d k : Nat} (hd : 0 < d) (h : d * k ≤ n) :
    k ≤ QueryEstimator.natRound n d := by
  unfold QueryEstimator.natRound
  have hc : k * d = d * k := Nat.mul_comm k d
  have h1 : k ≤ n / d := (Nat.le_div_iff_mul_le hd).mpr (by omega)
  have h2 : n / d = 2 * n / (2 * d) := (Nat.mul_div_mul_left n d (by omega : 0 < 2)).symm
  have h3 : 2 * n / (2 * d) ≤ (2 * n + d) / (2 * d) :=
    Nat.div_le_div_right (by omega)
  omega

theorem mul_self (k d : Nat) (hd : 0 < d) : QueryEstimator.natRound (k * d) d = k := by
  unfold QueryEstimator.natRound
  have h1 : 2 * (k * d) + d = d * (2 * k + 1) := by ring
  have h2 : 2 * d = d * 2 := by ring
  rw [h1, h2, Nat.mul_div_mul_left _ _ hd]
  omega

/-- Rounding of an exact rational fraction of naturals agrees with natRound. -/
theorem round_ratCast_div (a b : Nat) (hb : 0 < b) :
    round ((a : ℚ) / (b : ℚ)) = ((QueryEstimator.natRound a b : Nat) : ℤ) := by
  have hb0 : (b : ℚ) ≠ 0 := by positivity
  have hstep : (a : ℚ) / (b : ℚ) + 1 / 2 = (((2 * a + b : ℕ) : ℤ) : ℚ) / ((2 * b : ℕ) : ℚ) := by
    push_cast
    field_simp
    ring
  rw [round_eq, hstep, Rat.floor_intCast_div_natCast]
  unfold QueryEstimator.natRound
  rw [Int.ofNat_div]
  rfl

end NatRound

/-- Claim C6, counterexample.  The claim asserts that for EVERY cardinality
estimation E and every available > 0, total > 0 the adjusted estimation
satisfies adjusted.min ≤ adjusted.exp ≤ adjusted.max.  The code orders the
fields this way only for well-formed inputs: for E = (min 1, exp 0, max 0)
with available = total = 1 the code returns min = 1 and exp = 0, so the
claimed inequality min ≤ exp fails (this is exactly the situation the
debug_assert inside adjust_to_available_vectors would trap). -/
theorem adjust_to_available_vectors_claim_false :
    ¬ ((QueryEstimator.adjust_to_available_vectors ⟨[], 1, 0, 0⟩ 1 1).min ≤
        (QueryEstimator.adjust_to_available_vectors ⟨[], 1, 0, 0⟩ 1 1).exp ∧
       (QueryEstimator.adjust_to_available_vectors ⟨[], 1, 0, 0⟩ 1 1).exp ≤
        (QueryEstimator.adjust_to_available_vectors ⟨[], 1, 0, 0⟩ 1 1).max) := by
  decide

/-- Claim C6, amended.  For a well-formed estimation (min ≤ exp ≤ max ≤ total)
and available ≤ total with both positive, adjust_to_available_vectors returns
exactly min = max(0, E.min - (total - available)) (truncated subtraction),
max = min(E.max, available), exp = round(E.exp * available / total), and the
result satisfies min ≤ exp ≤ max. -/
theorem adjust_to_available_vectors_bounds (e : QueryEstimator.CardinalityEstimation)
    (av ap : Nat) (hav : 0 < av) (hap : 0 < ap)
    (hme : e.min ≤ e.exp) (hem : e.exp ≤ e.max) (hmt : e.max ≤ ap) (hvp : av ≤ ap) :
    QueryEstimator.adjust_to_available_vectors e av ap =
      { primary_clauses := e.primary_clauses,
        min := e.min - (ap - av),
        exp := QueryEstimator.natRound (e.exp * av) ap,
        max := min e.max av } ∧
    (QueryEstimator.adjust_to_available_vectors e av ap).min ≤
      (QueryEstimator.adjust_to_available_vectors e av ap).exp ∧
    (QueryEstimator.adjust_to_available_vectors e av ap).exp ≤
      (QueryEstimator.adjust_to_available_vectors e av ap).max := by
  have hez : ¬ (ap = 0 ∨ av = 0) := by omega
  have hexpt : e.exp ≤ ap := le_trans hem hmt
  have heq : QueryEstimator.adjust_to_available_vectors e av ap =
      { primary_clauses := e.primary_clauses,
        min := e.min - (ap - av),
        exp := QueryEstimator.natRound (e.exp * av) ap,
        max := min e.max av } := by
    unfold QueryEstimator.adjust_to_available_vectors
    rw [if_neg hez]
    dsimp only
    rw [QueryEstimator.CardinalityEstimation.mk.injEq]
    refine ⟨rfl, rfl, ?_, by omega⟩
    by_cases hcl : ap ≤ av
    · have hae : av = ap := le_antisymm hvp hcl
      rw [if_pos hcl]
      subst hae
      exact (NatRound.mul_self e.exp av hav).symm
    · rw [if_neg hcl]
  refine ⟨heq, ?_, ?_⟩ <;> rw [heq] <;> dsimp only
  · by_cases hz : e.min ≤ ap - av
    · have hz0 : e.min - (ap - av) = 0 := by omega
      rw [hz0]
      exact Nat.zero_le _
    · apply NatRound.ge_of_mul_le hap
      have h1 : ap - av ≤ e.min := by omega
      zify [h1, hvp]
      nlinarith [mul_le_mul_of_nonneg_left (show (e.min : ℤ) ≤ (e.exp : ℤ) by exact_mod_cast hme)
          (show (0 : ℤ) ≤ (ap : ℤ) by positivity),
        mul_nonneg (show (0 : ℤ) ≤ (ap : ℤ) - (e.exp : ℤ) by
            have h2 : e.exp ≤ ap := hexpt
            omega)
          (show (0 : ℤ) ≤ (ap : ℤ) - (av : ℤ) by omega)]
  · apply NatRound.le_of_mul_le hap
    by_cases hma : e.max ≤ av
    · have hm : min e.max av = e.max := by omega
      rw [hm]
      calc e.exp * av ≤ e.max * ap := Nat.mul_le_mul hem hvp
        _ = ap * e.max := Nat.mul_comm _ _
    · have hm : min e.max av = av := by omega
      rw [hm]
      calc e.exp * av ≤ ap * av := Nat.mul_le_mul_right av hexpt
        _ = ap * av := rfl

/-- Witness for the amended C6 at the documented example: total 200 points,
50 available, raw estimate (0, 64, 100) adjusts to (0, 16, 50). -/
theorem adjust_to_available_vectors_bounds_witness :
    ((0 : Nat) < 50 ∧ (0 : Nat) < 200 ∧ (0 : Nat) ≤ 64 ∧ (64 : Nat) ≤ 100 ∧
      (100 : Nat) ≤ 200 ∧ (50 : Nat) ≤ 200) ∧
    QueryEstimator.adjust_to_available_vectors ⟨[], 0, 64, 100⟩ 50 200 = ⟨[], 0, 16, 50⟩ := by
  refine ⟨by decide, ?_⟩
  have h := (adjust_to_available_vectors_bounds ⟨[], 0, 64, 100⟩ 50 200 (by decide) (by decide)
    (by decide) (by decide) (by decide) (by decide)).1
  rw [h]
  decide

/-- Claim C10.  The inversion min = total - E.max, exp = total - E.exp,
max = total - E.min is performed with unguarded unsigned subtraction.  For
every estimation with min ≤ exp ≤ max ≤ total no subtraction underflows and
the result is again ordered; and there is a concrete input with E.max
greater than total (five ids named by a HasId condition against a three
point segment) on which total - E.max underflows, modelled by the none
result.  The precondition E.max ≤ total is a hypothesis the specification
never states. -/
theorem invert_estimation_spec (e : QueryEstimator.CardinalityEstimation) (total : Nat)
    (h1 : e.min ≤ e.exp) (h2 : e.exp ≤ e.max) (h3 : e.max ≤ total) :
    (∃ r, QueryEstimator.invert_estimation e total = some r ∧
      r.min = total - e.max ∧ r.exp = total - e.exp ∧ r.max = total - e.min ∧
      r.min ≤ r.exp ∧ r.exp ≤ r.max) ∧
    QueryEstimator.invert_estimation ⟨[], 0, 0, 5⟩ 3 = none := by
  refine ⟨?_, by decide⟩
  refine ⟨⟨[], total - e.max, total - e.exp, total - e.min⟩, ?_, rfl, rfl, rfl,
    show total - e.max ≤ total - e.exp by omega,
    show total - e.exp ≤ total - e.min by omega⟩
  unfold QueryEstimator.invert_estimation
  rw [if_pos ⟨h3, le_trans h2 h3, le_trans h1 (le_trans h2 h3)⟩]

section CombineMust

open QueryEstimator

theorem sum_le_length_mul (l : List Nat) (t : Nat) (h : ∀ m ∈ l, m ≤ t) :
    l.sum ≤ l.length * t := by
  induction l with
  | nil => simp
  | cons m rest ih =>
    have hm : m ≤ t := h m (List.mem_cons_self _ _)
    have hr := ih (fun x hx => h x (List.mem_cons_of_mem _ hx))
    simp only [List.sum_cons, List.length_cons]
    calc m + rest.sum ≤ t + rest.length * t := Nat.add_le_add hm hr
      _ = (rest.length + 1) * t := by ring

theorem mustMinFold_char (t : Nat) (mins : List Nat) (h : ∀ m ∈ mins, m ≤ t) :
    ∀ acc : Int, 0 ≤ acc → acc ≤ (t : Int) →
      mins.foldl (fun (a : Int) (x : Nat) => max 0 (a + (x : Int) - (t : Int))) acc =
        max 0 (acc + (mins.sum : Int) - (mins.length : Int) * (t : Int)) := by
  induction mins with
  | nil =>
    intro acc h0 _
    simp [max_eq_right h0]
  | cons m rest ih =>
    intro acc h0 ht
    have hm : (m : Int) ≤ (t : Int) := by
      exact_mod_cast h m (List.mem_cons_self _ _)
    have hrest : ∀ x ∈ rest, x ≤ t := fun x hx => h x (List.mem_cons_of_mem _ hx)
    have hsum : (rest.sum : Int) ≤ (rest.length : Int) * (t : Int) := by
      have := sum_le_length_mul rest t hrest
      exact_mod_cast this
    have h0n : (0 : Int) ≤ max 0 (acc + (m : Int) - (t : Int)) := le_max_left _ _
    have htn : max 0 (acc + (m : Int) - (t : Int)) ≤ (t : Int) := by
      rw [max_le_iff]
      constructor
      · exact_mod_cast Nat.zero_le t
      · linarith
    rw [List.foldl_cons, ih hrest _ h0n htn]
    by_cases hcase : (0 : Int) ≤ acc + (m : Int) - (t : Int)
    · rw [max_eq_right hcase]
      have harg : acc + (m : Int) - (t : Int) + (rest.sum : Int) -
          (rest.length : Int) * (t : Int) =
          acc + ((m :: rest).sum : Int) - (((m :: rest).length : Int)) * (t : Int) := by
        simp only [List.sum_cons, List.length_cons, Nat.cast_add, Nat.cast_one]
        ring
      rw [harg]
    · push_neg at hcase
      rw [max_eq_left (le_of_lt hcase)]
      have hleft : max 0 ((0 : Int) + (rest.sum : Int) - (rest.length : Int) * (t : Int)) = 0 :=
        max_eq_left (by linarith)
      have hright : max 0 (acc + ((m :: rest).sum : Int) -
          ((m :: rest).length : Int) * (t : Int)) = 0 := by
        apply max_eq_left
        simp only [List.sum_cons, List.length_cons, Nat.cast_add, Nat.cast_one]
        nlinarith
      rw [hleft, hright]

theorem prod_map_div (es : List CardinalityEstimation) (t : Nat) (ht : 0 < t) :
    (es.map (fun x => ((x.exp : ℚ)) / (t : ℚ))).prod =
      (((es.map (·.exp)).prod : Nat) : ℚ) / ((t : ℚ) ^ es.length) := by
  have ht0 : (t : ℚ) ≠ 0 := by positivity
  induction es with
  | nil => simp
  | cons e rest ih =>
    simp only [List.map_cons, List.prod_cons, ih, List.length_cons]
    rw [div_mul_div_comm, pow_succ]
    push_cast
    ring_nf

theorem minByKeyStep_fold (l : List CardinalityEstimation) :
    ∀ a : CardinalityEstimation,
      ∃ b, l.foldl minByKeyStep (some a) = some b ∧ b ∈ a :: l ∧
        ∀ c ∈ a :: l, b.exp ≤ c.exp := by
  induction l with
  | nil =>
    intro a
    exact ⟨a, rfl, List.mem_cons_self _ _, by
      intro c hc
      rw [List.mem_singleton] at hc
      rw [hc]⟩
  | cons x xs ih =>
    intro a
    by_cases hx : x.exp < a.exp
    · have hstep : minByKeyStep (some a) x = some x := by
        show (if x.exp < a.exp then some x else some a) = some x
        rw [if_pos hx]
      obtain ⟨b, hb1, hb2, hb3⟩ := ih x
      refine ⟨b, by rw [List.foldl_cons, hstep]; exact hb1, List.mem_cons_of_mem _ hb2, ?_⟩
      intro c hc
      rcases List.mem_cons.mp hc with h | hc2
      · have hbx := hb3 x (List.mem_cons_self _ _)
        rw [h]
        omega
      · exact hb3 c hc2
    · have hstep : minByKeyStep (some a) x = some a := by
        show (if x.exp < a.exp then some x else some a) = some a
        rw [if_neg hx]
      obtain ⟨b, hb1, hb2, hb3⟩ := ih a
      refine ⟨b, by rw [List.foldl_cons, hstep]; exact hb1, ?_, ?_⟩
      · rcases List.mem_cons.mp hb2 with h | h
        · rw [h]
          exact List.mem_cons_self _ _
        · exact List.mem_cons_of_mem _ (List.mem_cons_of_mem _ h)
      · intro c hc
        rcases List.mem_cons.mp hc with h | hc2
        · rw [h]
          exact hb3 a (List.mem_cons_self _ _)
        · rcases List.mem_cons.mp hc2 with h | h
          · have hba := hb3 a (List.mem_cons_self _ _)
            rw [h]
            omega
          · exact hb3 c (List.mem_cons_of_mem _ h)

theorem minByExpFirst_spec (l : List CardinalityEstimation) (hl : l ≠ []) :
    ∃ b, minByExpFirst l = some b ∧ b ∈ l ∧ ∀ c ∈ l, b.exp ≤ c.exp := by
  cases l with
  | nil => exact absurd rfl hl
  | cons x xs =>
    obtain ⟨b, hb1, hb2, hb3⟩ := minByKeyStep_fold xs x
    exact ⟨b, hb1, hb2, hb3⟩

end CombineMust

/-- Claim C7.  For a non-empty list of branch estimations bounded by total
and a positive total, combine_must_estimations returns
min = max(0, sum of mins - (n - 1) * total) (the truncated Nat subtraction),
max = the smallest branch max, exp = round(total * product of (exp_i / total))
which equals the half-up rounding of (product of exp_i) / total^(n-1), and
its primary clauses are those of the first branch with minimal exp among the
branches that have primary clauses. -/
theorem combine_must_estimations_spec (es : List QueryEstimator.CardinalityEstimation)
    (total : Nat) (hne : es ≠ []) (htot : 0 < total)
    (hb : ∀ e ∈ es, e.min ≤ total ∧ e.exp ≤ total ∧ e.max ≤ total) :
    (QueryEstimator.combine_must_estimations es total).min =
      (es.map (·.min)).sum - (es.length - 1) * total ∧
    (QueryEstimator.combine_must_estimations es total).max =
      ((es.map (·.max)).min?).getD total ∧
    (QueryEstimator.combine_must_estimations es total).exp =
      QueryEstimator.natRound ((es.map (·.exp)).prod) (total ^ (es.length - 1)) ∧
    (es.filter (fun x => !x.primary_clauses.isEmpty) ≠ [] →
      ∃ b ∈ es.filter (fun x => !x.primary_clauses.isEmpty),
        (∀ c ∈ es.filter (fun x => !x.primary_clauses.isEmpty), b.exp ≤ c.exp) ∧
        (QueryEstimator.combine_must_estimations es total).primary_clauses =
          b.primary_clauses) := by
  obtain ⟨k, hk⟩ : ∃ k, es.length = k + 1 := by
    cases es with
    | nil => exact absurd rfl hne
    | cons x xs => exact ⟨xs.length, by simp⟩
  refine ⟨?_, rfl, ?_, ?_⟩
  · show (QueryEstimator.mustMinFold (es.map (·.min)) total).toNat = _
    unfold QueryEstimator.mustMinFold
    rw [mustMinFold_char total (es.map (·.min))
      (by
        intro m hm
        obtain ⟨e, he, rfl⟩ := List.mem_map.mp hm
        exact (hb e he).1)
      (total : Int) (by positivity) le_rfl]
    have hlen : (es.map (·.min)).length = k + 1 := by
      rw [List.length_map, hk]
    rw [hlen, hk]
    have hprod : ((k + 1 : Nat) : Int) * (total : Int) =
        ((k * total : Nat) : Int) + (total : Int) := by
      push_cast
      ring
    rw [show k + 1 - 1 = k from rfl]
    omega
  · show (round ((es.map (fun x => (x.exp : ℚ) / (total : ℚ))).prod * (total : ℚ))).toNat = _
    rw [prod_map_div es total htot, hk]
    have hexpand : (((es.map (·.exp)).prod : Nat) : ℚ) / ((total : ℚ) ^ (k + 1)) * (total : ℚ) =
        (((es.map (·.exp)).prod : Nat) : ℚ) / (((total ^ k : Nat)) : ℚ) := by
      have ht0 : (total : ℚ) ≠ 0 := by positivity
      push_cast
      rw [pow_succ]
      field_simp
      ring
    rw [hexpand, NatRound.round_ratCast_div _ _ (Nat.pos_pow_of_pos k htot)]
    rw [Int.toNat_natCast]
    have hsimp : k + 1 - 1 = k := by omega
    rw [hsimp]
  · intro hfil
    obtain ⟨b, hb1, hb2, hb3⟩ := minByExpFirst_spec _ hfil
    refine ⟨b, hb2, hb3, ?_⟩
    show ((QueryEstimator.minByExpFirst
        (es.filter (fun x => !x.primary_clauses.isEmpty))).map (·.primary_clauses)).getD [] = _
    rw [hb1]
    rfl

/-- Witness for C7 at a concrete pair of branches over 1000 points. -/
theorem combine_must_estimations_spec_witness :
    (([⟨[1], 100, 200, 300⟩, ⟨[2], 100, 100, 100⟩] :
        List QueryEstimator.CardinalityEstimation) ≠ [] ∧ (0 : Nat) < 1000) ∧
    (QueryEstimator.combine_must_estimations
        [⟨[1], 100, 200, 300⟩, ⟨[2], 100, 100, 100⟩] 1000).min =
      ([(100 : Nat), 100].sum - (2 - 1) * 1000) ∧
    (QueryEstimator.combine_must_estimations
        [⟨[1], 100, 200, 300⟩, ⟨[2], 100, 100, 100⟩] 1000).exp =
      QueryEstimator.natRound ([(200 : Nat), 100].prod) (1000 ^ (2 - 1)) := by
  have h := combine_must_estimations_spec [⟨[1], 100, 200, 300⟩, ⟨[2], 100, 100, 100⟩] 1000
    (by decide) (by decide) (by decide)
  exact ⟨⟨by decide, by decide⟩, h.1, h.2.2.1⟩

/-- Witness for C10 at a concrete ordered estimation. -/
theorem invert_estimation_spec_witness :
    ((1 : Nat) ≤ 2 ∧ (2 : Nat) ≤ 3 ∧ (3 : Nat) ≤ 5) ∧
    (∃ r, QueryEstimator.invert_estimation ⟨[], 1, 2, 3⟩ 5 = some r ∧
      r.min = 5 - 3 ∧ r.exp = 5 - 2 ∧ r.max = 5 - 1 ∧ r.min ≤ r.exp ∧ r.exp ≤ r.max) := by
  exact ⟨by decide,
    (invert_estimation_spec ⟨[], 1, 2, 3⟩ 5 (by decide) (by decide) (by decide)).1⟩

namespace ChunkedMmap

/-- Model of ChunkedMmapConfig (chunked_mmap_vectors.rs, lines 30-35). -/
structure ChunkedMmapConfig where
  chunk_size_bytes : Nat
  chunk_size_vectors : Nat
  dim : Nat
deriving Repr, DecidableEq

/-- Embedding of ensure_config on a fresh directory (chunked_mmap_vectors.rs,
lines 67-101).  VectorElementType is f32, so size_of is 4 bytes; the default
chunk size (512 KiB in debug builds, 32 MiB in release builds) is kept as an
explicit argument default_chunk_size. -/
def ensure_config (default_chunk_size dim : Nat) : ChunkedMmapConfig :=
  let vector_size_bytes := dim * 4
  let chunk_size_vectors := default_chunk_size / vector_size_bytes
  let corrected_chunk_size_bytes := chunk_size_vectors * vector_size_bytes
  { chunk_size_bytes := corrected_chunk_size_bytes,
    chunk_size_vectors := chunk_size_vectors,
    dim := dim }

/-- Model of the in-memory view of ChunkedMmapVectors: the status file holds
len, and every chunk file is a run of chunk_size_vectors * dim elements (f32
values are opaque here, each occupying 4 bytes in the file). -/
structure ChunkedMmapVectors where
  config : ChunkedMmapConfig
  len : Nat
  chunks : List (List Nat)
deriving Repr, DecidableEq

/-- Number of elements in one chunk file; the file is chunk_size_bytes =
chunk_size_vectors * dim * 4 bytes long. -/
def chunkElems (config : ChunkedMmapConfig) : Nat :=
  config.chunk_size_vectors * config.dim

/-- Model of create_chunk: a fresh chunk file of chunk_size_bytes zero bytes. -/
def zeroChunk (config : ChunkedMmapConfig) : List Nat :=
  List.replicate (chunkElems config) 0

/-- Overwrite of chunk[off .. off + v.length] with v (copy_from_slice). -/
def writeSlice (chunk : List Nat) (off : Nat) (v : List Nat) : List Nat :=
  chunk.take off ++ v ++ chunk.drop (off + v.length)

/-- Embedding of insert (chunked_mmap_vectors.rs, lines 151-175) together
with get_chunk_index and get_chunk_offset (lines 120-130).  The element
offset inside a chunk is (key mod chunk_size_vectors) * dim, which is byte
position (key mod chunk_size_vectors) * dim * 4 in the chunk file.  When
chunk_size_vectors is zero the Rust division key / chunk_size_vectors
panics, modelled by none.  The while loop that ensures capacity appends
chunk_idx + 1 - chunks.length fresh zero chunks at the end. -/
def insert (s : ChunkedMmapVectors) (key : Nat) (vector : List Nat) :
    Option ChunkedMmapVectors :=
  if s.config.chunk_size_vectors = 0 then none
  else
    let chunk_idx := key / s.config.chunk_size_vectors
    let chunk_offset := (key % s.config.chunk_size_vectors) * s.config.dim
    let grown := s.chunks ++
      List.replicate (chunk_idx + 1 - s.chunks.length) (zeroChunk s.config)
    let chunks2 := grown.set chunk_idx (writeSlice (grown.getD chunk_idx []) chunk_offset vector)
    some { s with chunks := chunks2, len := max s.len (key + 1) }

/-- Embedding of get (chunked_mmap_vectors.rs, lines 183-192): the slice
chunk[chunk_offset .. chunk_offset + dim] of the addressed chunk. -/
def get (s : ChunkedMmapVectors) (key : Nat) : List Nat :=
  ((s.chunks.getD (key / s.config.chunk_size_vectors) []).drop
    ((key % s.config.chunk_size_vectors) * s.config.dim)).take s.config.dim

/-- Sequential application of insert, for the logical-length bookkeeping. -/
def insertAll (s : ChunkedMmapVectors) (ops : List (Nat × List Nat)) :
    Option ChunkedMmapVectors :=
  ops.foldl (fun acc kv => acc.bind (fun st => insert st kv.1 kv.2)) (some s)

end ChunkedMmap

namespace ChunkedMmapLemmas

open ChunkedMmap

theorem writeSlice_length {chunk v : List Nat} {off : Nat}
    (h : off + v.length ≤ chunk.length) :
    (writeSlice chunk off v).length = chunk.length := by
  simp only [writeSlice, List.length_append, List.length_take, List.length_drop]
  omega

theorem writeSlice_readback {chunk v : List Nat} {off : Nat}
    (h : off + v.length ≤ chunk.length) :
    (((writeSlice chunk off v).drop off).take v.length) = v := by
  unfold writeSlice
  set A := chunk.take off with hA
  set C := chunk.drop (off + v.length) with hC
  have h1 : A.length = off := by
    rw [hA, List.length_take]
    omega
  rw [List.append_assoc, ← h1, List.drop_left, List.take_left]

theorem insert_eq {s : ChunkedMmapVectors} {key : Nat} {vector : List Nat}
    (hcsv : 0 < s.config.chunk_size_vectors) :
    ChunkedMmap.insert s key vector =
      some { s with
        len := max s.len (key + 1),
        chunks :=
          (s.chunks ++ List.replicate
              (key / s.config.chunk_size_vectors + 1 - s.chunks.length) (zeroChunk s.config)).set
            (key / s.config.chunk_size_vectors)
            (writeSlice
              ((s.chunks ++ List.replicate
                  (key / s.config.chunk_size_vectors + 1 - s.chunks.length)
                  (zeroChunk s.config)).getD (key / s.config.chunk_size_vectors) [])
              ((key % s.config.chunk_size_vectors) * s.config.dim) vector) } := by
  unfold ChunkedMmap.insert
  rw [if_neg (by omega)]

theorem insertAll_len (ops : List (Nat × List Nat)) :
    ∀ s : ChunkedMmapVectors, 0 < s.config.chunk_size_vectors →
      ∃ s1, insertAll s ops = some s1 ∧
        s1.len = ops.foldl (fun m kv => max m (kv.1 + 1)) s.len ∧
        s1.config = s.config := by
  induction ops with
  | nil => exact fun s hs => ⟨s, rfl, rfl, rfl⟩
  | cons kv rest ih =>
    intro s hs
    obtain ⟨s2, h2a, h2b, h2c⟩ : ∃ s2, ChunkedMmap.insert s kv.1 kv.2 = some s2 ∧
        s2.config = s.config ∧ s2.len = max s.len (kv.1 + 1) :=
      ⟨_, @insert_eq s kv.1 kv.2 hs, rfl, rfl⟩
    obtain ⟨s1, h1, hlen, hcfg⟩ := ih s2 (by rw [h2b]; exact hs)
    have hunf : insertAll s (kv :: rest) = insertAll s2 rest := by
      unfold insertAll
      rw [List.foldl_cons, Option.some_bind, h2a]
    refine ⟨s1, by rw [hunf]; exact h1, ?_, by rw [hcfg, h2b]⟩
    rw [List.foldl_cons, hlen, h2c]

theorem get_eq_take (s1 : ChunkedMmapVectors) (key : Nat) :
    ChunkedMmap.get s1 key =
      ((s1.chunks.getD (key / s1.config.chunk_size_vectors) []).drop
        ((key % s1.config.chunk_size_vectors) * s1.config.dim)).take s1.config.dim := rfl

theorem insert_spec {s : ChunkedMmapVectors} {key : Nat} {v : List Nat}
    (hcsv : 0 < s.config.chunk_size_vectors)
    (hclen : ∀ c ∈ s.chunks, c.length = chunkElems s.config)
    (hv : v.length = s.config.dim) :
    ∃ s1, ChunkedMmap.insert s key v = some s1 ∧
      s1.config = s.config ∧ s1.len = max s.len (key + 1) ∧
      s1.chunks.length = max s.chunks.length (key / s.config.chunk_size_vectors + 1) ∧
      (∀ c ∈ s1.chunks, c.length = chunkElems s.config) ∧
      (((s1.chunks.getD (key / s.config.chunk_size_vectors) []).drop
        ((key % s.config.chunk_size_vectors) * s.config.dim)).take v.length) = v ∧
      ChunkedMmap.get s1 key = v := by
  have hglen : (s.chunks ++ List.replicate
      (key / s.config.chunk_size_vectors + 1 - s.chunks.length)
      (zeroChunk s.config)).length =
      max s.chunks.length (key / s.config.chunk_size_vectors + 1) := by
    rw [List.length_append, List.length_replicate]
    omega
  have hgmem : ∀ c ∈ (s.chunks ++ List.replicate
      (key / s.config.chunk_size_vectors + 1 - s.chunks.length) (zeroChunk s.config)),
      c.length = chunkElems s.config := by
    intro c hc
    rcases List.mem_append.mp hc with hc1 | hc2
    · exact hclen c hc1
    · rw [List.eq_of_mem_replicate hc2]
      simp [zeroChunk]
  have hidxlt : key / s.config.chunk_size_vectors < (s.chunks ++ List.replicate
      (key / s.config.chunk_size_vectors + 1 - s.chunks.length)
      (zeroChunk s.config)).length := by
    rw [hglen]
    omega
  have htgtlen : ((s.chunks ++ List.replicate
      (key / s.config.chunk_size_vectors + 1 - s.chunks.length)
      (zeroChunk s.config)).getD (key / s.config.chunk_size_vectors) []).length =
      chunkElems s.config := by
    rw [List.getD_eq_getElem _ _ hidxlt]
    exact hgmem _ (List.getElem_mem hidxlt)
  have hoffb : (key % s.config.chunk_size_vectors) * s.config.dim + v.length ≤
      ((s.chunks ++ List.replicate
        (key / s.config.chunk_size_vectors + 1 - s.chunks.length)
        (zeroChunk s.config)).getD (key / s.config.chunk_size_vectors) []).length := by
    rw [htgtlen, hv]
    unfold chunkElems
    have hmodlt : key % s.config.chunk_size_vectors < s.config.chunk_size_vectors :=
      Nat.mod_lt key hcsv
    have hmul : (key % s.config.chunk_size_vectors + 1) * s.config.dim ≤
        s.config.chunk_size_vectors * s.config.dim :=
      Nat.mul_le_mul_right _ (by omega)
    have hx : (key % s.config.chunk_size_vectors + 1) * s.config.dim =
        (key % s.config.chunk_size_vectors) * s.config.dim + s.config.dim := by
      ring
    omega
  have hsetlt : key / s.config.chunk_size_vectors < ((s.chunks ++ List.replicate
      (key / s.config.chunk_size_vectors + 1 - s.chunks.length)
      (zeroChunk s.config)).set (key / s.config.chunk_size_vectors)
        (writeSlice ((s.chunks ++ List.replicate
          (key / s.config.chunk_size_vectors + 1 - s.chunks.length)
          (zeroChunk s.config)).getD (key / s.config.chunk_size_vectors) [])
          ((key % s.config.chunk_size_vectors) * s.config.dim) v)).length := by
    rw [List.length_set]
    exact hidxlt
  have hsetget : ((s.chunks ++ List.replicate
      (key / s.config.chunk_size_vectors + 1 - s.chunks.length)
      (zeroChunk s.config)).set (key / s.config.chunk_size_vectors)
        (writeSlice ((s.chunks ++ List.replicate
          (key / s.config.chunk_size_vectors + 1 - s.chunks.length)
          (zeroChunk s.config)).getD (key / s.config.chunk_size_vectors) [])
          ((key % s.config.chunk_size_vectors) * s.config.dim) v)).getD
        (key / s.config.chunk_size_vectors) [] =
      writeSlice ((s.chunks ++ List.replicate
        (key / s.config.chunk_size_vectors + 1 - s.chunks.length)
        (zeroChunk s.config)).getD (key / s.config.chunk_size_vectors) [])
        ((key % s.config.chunk_size_vectors) * s.config.dim) v := by
    rw [List.getD_eq_getElem _ _ hsetlt]
    exact List.getElem_set_eq hsetlt
  refine ⟨_, insert_eq hcsv, rfl, rfl, ?_, ?_, ?_, ?_⟩
  · dsimp only
    rw [List.length_set, hglen]
  · dsimp only
    intro c hc
    rcases List.mem_or_eq_of_mem_set hc with hc1 | hc2
    · exact hgmem c hc1
    · rw [hc2, writeSlice_length hoffb]
      exact htgtlen
  · dsimp only
    rw [hsetget]
    exact writeSlice_readback hoffb
  · rw [get_eq_take]
    dsimp only
    rw [hsetget]
    have hr := writeSlice_readback hoffb
    rw [hv] at hr
    exact hr

end ChunkedMmapLemmas

/-- Claim C9, counterexample.  The claim quantifies over every dimension
dim ≥ 1, but when dim * 4 exceeds the default chunk size (debug default
512 KiB, here dim = 131073 so vector bytes = 524292 > 524288) the computed
chunk_size_vectors is 0 and the first insert divides by zero, a panic in the
Rust code (modelled by none): no vector is stored at any chunk index, so the
claimed placement formula does not hold at this input. -/
theorem chunked_mmap_claim_false :
    ChunkedMmap.insert ⟨ChunkedMmap.ensure_config (512 * 1024) 131073, 0, []⟩ 0 [7] = none ∧
    (1 : Nat) ≤ 131073 := by
  exact ⟨by decide, by decide⟩

/-- Claim C9, amended: restricted to dimensions whose vector does fit in a
default chunk (dim * 4 ≤ default_chunk_bytes, so vectors_per_chunk ≥ 1).
Then the storage uses chunks of
chunk_bytes = (default_chunk_bytes / (dim * 4)) * (dim * 4) holding
vectors_per_chunk = default_chunk_bytes / (dim * 4) vectors; insert stores
the vector at offset key in chunk key / vectors_per_chunk at element
position (key mod vectors_per_chunk) * dim (byte position
(key mod vectors_per_chunk) * dim * 4, four bytes per f32 element), growing
capacity by appending zero chunk files, and the status len after a sequence
of inserts against a fresh storage is the maximum inserted offset + 1. -/
theorem chunked_mmap_vectors_spec (default_chunk_size dim : Nat)
    (hdim : 0 < dim) (hfit : dim * 4 ≤ default_chunk_size) :
    (ChunkedMmap.ensure_config default_chunk_size dim).chunk_size_vectors
      = default_chunk_size / (dim * 4) ∧
    (ChunkedMmap.ensure_config default_chunk_size dim).chunk_size_bytes
      = (default_chunk_size / (dim * 4)) * (dim * 4) ∧
    (∀ (s : ChunkedMmap.ChunkedMmapVectors) (key : Nat) (v : List Nat),
      s.config = ChunkedMmap.ensure_config default_chunk_size dim →
      (∀ c ∈ s.chunks, c.length = ChunkedMmap.chunkElems s.config) →
      v.length = dim →
      ∃ s1, ChunkedMmap.insert s key v = some s1 ∧
        s1.config = s.config ∧
        ((s1.chunks.getD (key / s.config.chunk_size_vectors) []).drop
          ((key % s.config.chunk_size_vectors) * dim)).take dim = v ∧
        ChunkedMmap.get s1 key = v ∧
        s1.chunks.length = max s.chunks.length (key / s.config.chunk_size_vectors + 1) ∧
        s1.len = max s.len (key + 1) ∧
        (∀ c ∈ s1.chunks, c.length = ChunkedMmap.chunkElems s.config)) ∧
    (∀ ops : List (Nat × List Nat),
      ∃ sf, ChunkedMmap.insertAll
          ⟨ChunkedMmap.ensure_config default_chunk_size dim, 0, []⟩ ops = some sf ∧
        sf.len = ops.foldl (fun m kv => max m (kv.1 + 1)) 0) := by
  have hvb : 0 < dim * 4 := by omega
  have hcsv0 : 0 < default_chunk_size / (dim * 4) := Nat.div_pos hfit hvb
  refine ⟨rfl, rfl, ?_, ?_⟩
  · intro s key v hscfg hclen hv
    have hcsv : 0 < s.config.chunk_size_vectors := by
      rw [hscfg]
      exact hcsv0
    have hdimeq : s.config.dim = dim := by
      rw [hscfg]
      rfl
    have hv2 : v.length = s.config.dim := by rw [hdimeq]; exact hv
    obtain ⟨s1, h1, hcfg, hlenf, hclenf, hmemf, hread, hget⟩ :=
      ChunkedMmapLemmas.insert_spec hcsv hclen hv2
    refine ⟨s1, h1, hcfg, ?_, hget, hclenf, hlenf, hmemf⟩
    rw [hv2] at hread
    rw [← hdimeq]
    exact hread
  · intro ops
    obtain ⟨sf, h1, h2, _⟩ := ChunkedMmapLemmas.insertAll_len ops
      ⟨ChunkedMmap.ensure_config default_chunk_size dim, 0, []⟩ hcsv0
    exact ⟨sf, h1, h2⟩

/-- Witness for the amended C9: dimension 2 over a 64-byte default chunk
(8 vectors per chunk); inserting at offset 9 grows the storage to two chunk
files, stores into chunk 1, and sets the logical length to 10. -/
theorem chunked_mmap_vectors_spec_witness :
    ((0 : Nat) < 2 ∧ 2 * 4 ≤ 64) ∧
    (∃ s1, ChunkedMmap.insert ⟨ChunkedMmap.ensure_config 64 2, 0, []⟩ 9 [5, 6] = some s1 ∧
      ChunkedMmap.get s1 9 = [5, 6] ∧ s1.len = 10 ∧ s1.chunks.length = 2) := by
  refine ⟨⟨by decide, by decide⟩, ?_⟩
  obtain ⟨s1, h1, hcfg, hread, hget, hchlen, hlen, hmem⟩ :=
    (chunked_mmap_vectors_spec 64 2 (by decide) (by decide)).2.2.1
      ⟨ChunkedMmap.ensure_config 64 2, 0, []⟩ 9 [5, 6] rfl (by intro c hc; simp at hc) rfl
  refine ⟨s1, h1, hget, ?_, ?_⟩
  · rw [hlen]
    decide
  · rw [hchlen]
    decide

namespace SegmentHolder

/-- Modelled from the spec: the view of one segment that flush_all reads.
The plain Segment implementation is not under src; per the specification a
segment exposes is_appendable, version() and flush(sync), and flush returns
the persisted version (the max op durably persisted), reported here as the
persisted field.  A flush error would abort flush_all early and is not
modelled: the claim is about the returned version. -/
structure SegmentView where
  appendable : Bool
  version : Nat
  persisted : Nat
deriving Repr, DecidableEq, Inhabited

/-- Embedding of SegmentHolder::appendable_segments (segment_holder.rs,
lines 227-233), with the holder as a list of segment views. -/
def appendable_segments (h : List SegmentView) : List SegmentView :=
  h.filter (fun s => s.appendable)

/-- Embedding of SegmentHolder::non_appendable_segments (lines 235-241). -/
def non_appendable_segments (h : List SegmentView) : List SegmentView :=
  h.filter (fun s => !s.appendable)

/-- Embedding of segment_flush_ordering (segment_holder.rs, lines 426-433):
appendable segments first, then non-appendable. -/
def segment_flush_ordering (h : List SegmentView) : List SegmentView :=
  appendable_segments h ++ non_appendable_segments h

/-- One iteration of the flush_all loop (segment_holder.rs, lines 444-457):
the state carries max_persisted_version and, when has_unsaved, the minimal
persisted version among lagging segments (version > persisted). -/
def flushStep (st : Nat × Option Nat) (s : SegmentView) : Nat × Option Nat :=
  (max st.1 s.persisted,
   if s.persisted < s.version then
     some (st.2.elim s.persisted (fun m => min m s.persisted))
   else st.2)

/-- Embedding of flush_all (segment_holder.rs, lines 439-463).  The sync
flag is forwarded to each segment flush and does not affect the returned
version.  max_persisted_version starts at SeqNumberType::MIN = 0 and
min_unsaved_version together with the has_unsaved flag is the Option. -/
def flush_all (sync : Bool) (h : List SegmentView) : Nat :=
  let r := (segment_flush_ordering h).foldl flushStep (0, none)
  match r.2 with
  | some m => m
  | none => r.1

/-- Merge of two optional minima, the shape of the min_unsaved bookkeeping. -/
def mergeMin : Option Nat → Option Nat → Option Nat
  | none, b => b
  | some a, none => some a
  | some a, some b => some (min a b)

end SegmentHolder

namespace SegmentHolderLemmas

open SegmentHolder

theorem mergeMin_assoc (a b c : Option Nat) :
    mergeMin (mergeMin a b) c = mergeMin a (mergeMin b c) := by
  cases a <;> cases b <;> cases c <;> simp [mergeMin, Nat.min_assoc]

theorem flushStep_snd_merge (st : Nat × Option Nat) (s : SegmentView)
    (h : s.persisted < s.version) :
    (flushStep st s).2 = mergeMin st.2 (some s.persisted) := by
  unfold flushStep
  rw [if_pos h]
  cases hm : st.2 <;> simp [mergeMin, Option.elim]

theorem flushStep_snd_skip (st : Nat × Option Nat) (s : SegmentView)
    (h : ¬ s.persisted < s.version) :
    (flushStep st s).2 = st.2 := by
  simp [flushStep, h]

theorem flushStep_comm (st : Nat × Option Nat) (s1 s2 : SegmentView) :
    flushStep (flushStep st s1) s2 = flushStep (flushStep st s2) s1 := by
  refine Prod.ext ?_ ?_
  · show max (max st.1 s1.persisted) s2.persisted = max (max st.1 s2.persisted) s1.persisted
    omega
  · by_cases h1 : s1.persisted < s1.version <;> by_cases h2 : s2.persisted < s2.version
    · rw [flushStep_snd_merge _ _ h2, flushStep_snd_merge _ _ h1,
        flushStep_snd_merge _ _ h1, flushStep_snd_merge _ _ h2,
        mergeMin_assoc, mergeMin_assoc]
      congr 1
      simp [mergeMin, Nat.min_comm]
    · rw [flushStep_snd_skip _ _ h2, flushStep_snd_merge _ _ h1,
        flushStep_snd_merge _ _ h1, flushStep_snd_skip _ _ h2]
    · rw [flushStep_snd_merge _ _ h2, flushStep_snd_skip _ _ h1,
        flushStep_snd_skip _ _ h1, flushStep_snd_merge _ _ h2]
    · rw [flushStep_snd_skip _ _ h2, flushStep_snd_skip _ _ h1,
        flushStep_snd_skip _ _ h1, flushStep_snd_skip _ _ h2]

theorem flushFold_char (L : List SegmentView) :
    ∀ (mp : Nat) (mu : Option Nat),
      L.foldl flushStep (mp, mu) =
        (max mp (((L.map (·.persisted)).max?).getD 0),
         mergeMin mu ((L.filter (fun s => s.persisted < s.version)).map (·.persisted)).min?) := by
  induction L with
  | nil =>
    intro mp mu
    cases mu <;> simp [mergeMin]
  | cons s L ih =>
    intro mp mu
    rw [List.foldl_cons]
    by_cases hlag : s.persisted < s.version
    · have hsnd : flushStep (mp, mu) s = (max mp s.persisted, mergeMin mu (some s.persisted)) := by
        refine Prod.ext rfl ?_
        exact flushStep_snd_merge (mp, mu) s hlag
      rw [hsnd, ih]
      refine Prod.ext ?_ ?_
      · show max (max mp s.persisted) (((L.map (·.persisted)).max?).getD 0) = _
        have hcons : ((s :: L).map (·.persisted)).max? =
            some (((L.map (·.persisted)).max?).elim s.persisted (max s.persisted)) := by
          rw [List.map_cons, List.max?_cons]
        rw [hcons]
        cases hmx : (L.map (·.persisted)).max? <;> simp [Option.elim] <;> omega
      · show mergeMin (mergeMin mu (some s.persisted)) _ = mergeMin mu _
        have hfil : (s :: L).filter (fun s => s.persisted < s.version) =
            s :: L.filter (fun s => s.persisted < s.version) := by
          rw [List.filter_cons_of_pos (by simp [hlag])]
        rw [hfil, List.map_cons, List.min?_cons, mergeMin_assoc]
        congr 1
        cases hmn : ((L.filter (fun s => s.persisted < s.version)).map (·.persisted)).min? <;>
          simp [mergeMin, Option.elim]
    · have hsnd : flushStep (mp, mu) s = (max mp s.persisted, mu) := by
        refine Prod.ext rfl ?_
        show (flushStep (mp, mu) s).2 = mu
        unfold flushStep
        rw [if_neg hlag]
      rw [hsnd, ih]
      refine Prod.ext ?_ ?_
      · show max (max mp s.persisted) (((L.map (·.persisted)).max?).getD 0) = _
        have hcons : ((s :: L).map (·.persisted)).max? =
            some (((L.map (·.persisted)).max?).elim s.persisted (max s.persisted)) := by
          rw [List.map_cons, List.max?_cons]
        rw [hcons]
        cases hmx : (L.map (·.persisted)).max? <;> simp [Option.elim] <;> omega
      · have hfil : (s :: L).filter (fun s => s.persisted < s.version) =
            L.filter (fun s => s.persisted < s.version) := by
          rw [List.filter_cons_of_neg (by simp [hlag])]
        rw [hfil]

theorem flush_ordering_perm (h : List SegmentView) :
    (segment_flush_ordering h).Perm h := by
  unfold segment_flush_ordering appendable_segments non_appendable_segments
  exact List.filter_append_perm _ h

theorem flush_all_char (sync : Bool) (h : List SegmentView) :
    flush_all sync h =
      match ((h.filter (fun s => s.persisted < s.version)).map (·.persisted)).min? with
      | some m => m
      | none => ((h.map (·.persisted)).max?).getD 0 := by
  unfold flush_all
  have hperm : (segment_flush_ordering h).foldl flushStep ((0 : Nat), (none : Option Nat)) =
      h.foldl flushStep (0, none) :=
    (flush_ordering_perm h).foldl_eq' (fun x _ y _ st => flushStep_comm st x y)
      ((0 : Nat), (none : Option Nat))
  rw [hperm, flushFold_char h 0 none]
  cases hmn : ((h.filter (fun s => s.persisted < s.version)).map (·.persisted)).min? <;>
    simp [mergeMin]

end SegmentHolderLemmas

/-- Claim C2.  flush_all(sync) flushes the segments in appendable-first
order (in the flush sequence every position holding an appendable segment
precedes every position holding a non-appendable one), and returns the
minimum persisted version among the lagging segments (those reporting
version > persisted) when one exists, else the maximum persisted version;
in particular the documented two-segment holder (A appendable persisted 20
version 20, B non-appendable persisted 25 version 30) returns 25, not 30. -/
theorem flush_all_spec (sync : Bool) (h : List SegmentHolder.SegmentView) :
    SegmentHolder.flush_all sync h =
      (match ((h.filter (fun s => s.persisted < s.version)).map (·.persisted)).min? with
       | some m => m
       | none => ((h.map (·.persisted)).max?).getD 0) ∧
    (∀ i j : Nat, i < j → j < (SegmentHolder.segment_flush_ordering h).length →
      ((SegmentHolder.segment_flush_ordering h).getD j default).appendable = true →
      ((SegmentHolder.segment_flush_ordering h).getD i default).appendable = true) ∧
    SegmentHolder.flush_all false [⟨true, 20, 20⟩, ⟨false, 30, 25⟩] = 25 ∧
    (25 : Nat) ≠ 30 := by
  refine ⟨SegmentHolderLemmas.flush_all_char sync h, ?_, by decide, by decide⟩
  intro i j hij hjlen happ
  unfold SegmentHolder.segment_flush_ordering at hjlen happ ⊢
  rw [List.length_append] at hjlen
  by_cases hjn : j < (SegmentHolder.appendable_segments h).length
  · have hin : i < (SegmentHolder.appendable_segments h).length := by omega
    rw [List.getD_append _ _ _ _ hin]
    have hmem : (SegmentHolder.appendable_segments h).getD i default ∈
        SegmentHolder.appendable_segments h := by
      rw [List.getD_eq_getElem _ _ hin]
      exact List.getElem_mem hin
    exact List.of_mem_filter hmem
  · exfalso
    rw [List.getD_append_right _ _ _ _ (by omega)] at happ
    have hlt : j - (SegmentHolder.appendable_segments h).length <
        (SegmentHolder.non_appendable_segments h).length := by omega
    have hmem : (SegmentHolder.non_appendable_segments h).getD
        (j - (SegmentHolder.appendable_segments h).length) default ∈
        SegmentHolder.non_appendable_segments h := by
      rw [List.getD_eq_getElem _ _ hlt]
      exact List.getElem_mem hlt
    have hneg := List.of_mem_filter hmem
    rw [happ] at hneg
    simp at hneg

/-- Witness for C2: the documented two-segment holder returns 25, and on a
two-appendable holder the flush ordering keeps appendables in front. -/
theorem flush_all_spec_witness :
    ((0 : Nat) < 1 ∧
      (1 : Nat) < (SegmentHolder.segment_flush_ordering [⟨true, 1, 1⟩, ⟨true, 2, 2⟩]).length ∧
      ((SegmentHolder.segment_flush_ordering
        [⟨true, 1, 1⟩, ⟨true, 2, 2⟩]).getD 1 default).appendable = true) ∧
    ((SegmentHolder.segment_flush_ordering
        [⟨true, 1, 1⟩, ⟨true, 2, 2⟩]).getD 0 default).appendable = true ∧
    SegmentHolder.flush_all false [⟨true, 20, 20⟩, ⟨false, 30, 25⟩] = 25 := by
  refine ⟨⟨by decide, by decide, by decide⟩, ?_, ?_⟩
  · exact (flush_all_spec false [⟨true, 1, 1⟩, ⟨true, 2, 2⟩]).2.1 0 1 (by decide) (by decide)
      (by decide)
  · exact (flush_all_spec false [⟨true, 20, 20⟩, ⟨false, 30, 25⟩]).2.2.1

namespace MergeOptimizer

/-- View of one holder entry as the merge optimizer reads it: the segment
id, whether the LockedSegment is a Proxy, whether segment_type() is
Special, available_point_count() and the largest of vector_dims(). -/
structure SegInfo where
  sid : Nat
  isProxy : Bool
  special : Bool
  available_point_count : Nat
  max_vector_dim : Nat
deriving Repr, DecidableEq

/-- Size estimate used for ordering candidates (merge_optimizer.rs, lines
116-123): available points times the largest vector dimension times
VECTOR_ELEMENT_SIZE = 4 bytes (f32). -/
def segSize (s : SegInfo) : Nat :=
  s.available_point_count * s.max_vector_dim * 4

/-- Stable insertion into a key-sorted list: an element moves left past
strictly larger keys only, which matches the stability of Rust
sorted_by_key. -/
def insertSorted (x : Nat × Nat) : List (Nat × Nat) → List (Nat × Nat)
  | [] => [x]
  | y :: ys => if y.2 < x.2 then y :: insertSorted x ys else x :: y :: ys

/-- Stable sort by the size key, the model of sorted_by_key. -/
def sortByKey : List (Nat × Nat) → List (Nat × Nat)
  | [] => []
  | x :: xs => insertSorted x (sortByKey xs)

/-- Running cumulative sum of sizes, the model of the scan step
(merge_optimizer.rs, lines 127-130): each candidate is paired with the
cumulative size up to and including it. -/
def cumulate (acc : Nat) : List (Nat × Nat) → List (Nat × Nat)
  | [] => []
  | (sid, size) :: rest => (sid, acc + size) :: cumulate (acc + size) rest

/-- Stage one of check_condition (merge_optimizer.rs, lines 93-98): keep
Original (non-Proxy) holder entries not in the excluded set. -/
def rawSegments (segments : List SegInfo) (excluded : List Nat) : List SegInfo :=
  segments.filter (fun s => !s.isProxy && !(excluded.contains s.sid))

/-- Stage two (merge_optimizer.rs, lines 108-125): drop Special segments
and pair each candidate id with its byte size. -/
def sizedCandidates (segments : List SegInfo) (excluded : List Nat) : List (Nat × Nat) :=
  ((rawSegments segments excluded).filter (fun s => !s.special)).map
    (fun s => (s.sid, segSize s))

/-- Stage three (merge_optimizer.rs, lines 126-137): sort ascending by
size, accumulate, and keep the entries whose cumulative size stays under
max_segment_size * 1024 bytes (saturating_mul is exact over Nat). -/
def qualifiedCandidates (max_segment_size : Nat) (segments : List SegInfo)
    (excluded : List Nat) : List (Nat × Nat) :=
  (cumulate 0 (sortByKey (sizedCandidates segments excluded))).takeWhile
    (fun p => p.2 < max_segment_size * 1024)

/-- Embedding of MergeOptimizer::check_condition (merge_optimizer.rs, lines
86-147).  raw_segments filters Original non-excluded entries; when their
count is at most max_segments nothing is merged; otherwise the qualified
candidates are capped at raw_count - max_segments + 2 and their ids are
returned only when at least three remain. -/
def check_condition (max_segments max_segment_size : Nat)
    (segments : List SegInfo) (excluded : List Nat) : List Nat :=
  let raw_segments := rawSegments segments excluded
  if raw_segments.length ≤ max_segments then []
  else
    let max_candidates := raw_segments.length - max_segments + 2
    let candidates :=
      ((qualifiedCandidates max_segment_size segments excluded).take max_candidates).map (·.1)
    if candidates.length < 3 then [] else candidates

end MergeOptimizer

namespace MergeOptimizerLemmas

open MergeOptimizer

theorem mem_of_mem_takeWhile {l : List (Nat × Nat)} {p : Nat × Nat → Bool} {a : Nat × Nat}
    (h : a ∈ l.takeWhile p) : a ∈ l := by
  induction l with
  | nil => simp at h
  | cons x xs ih =>
    rw [List.takeWhile_cons] at h
    by_cases hp : p x
    · rw [if_pos hp] at h
      rcases List.mem_cons.mp h with h1 | h2
      · rw [h1]
        exact List.mem_cons_self _ _
      · exact List.mem_cons_of_mem _ (ih h2)
    · rw [if_neg hp] at h
      simp at h

theorem insertSorted_perm (x : Nat × Nat) (l : List (Nat × Nat)) :
    (insertSorted x l).Perm (x :: l) := by
  induction l with
  | nil => exact List.Perm.refl _
  | cons y ys ih =>
    unfold insertSorted
    by_cases hc : y.2 < x.2
    · rw [if_pos hc]
      exact (List.Perm.cons y ih).trans (List.Perm.swap x y ys)
    · rw [if_neg hc]

theorem insertSorted_pairwise (x : Nat × Nat) (l : List (Nat × Nat))
    (h : List.Pairwise (fun p q => p.2 ≤ q.2) l) :
    List.Pairwise (fun p q => p.2 ≤ q.2) (insertSorted x l) := by
  induction l with
  | nil => simp [insertSorted]
  | cons y ys ih =>
    unfold insertSorted
    rcases List.pairwise_cons.mp h with ⟨hy, hys⟩
    by_cases hc : y.2 < x.2
    · rw [if_pos hc]
      rw [List.pairwise_cons]
      refine ⟨?_, ih hys⟩
      intro z hz
      rcases List.mem_cons.mp ((insertSorted_perm x ys).mem_iff.mp hz) with h1 | h2
      · rw [h1]
        omega
      · exact hy z h2
    · rw [if_neg hc]
      rw [List.pairwise_cons]
      refine ⟨?_, h⟩
      intro z hz
      rcases List.mem_cons.mp hz with h1 | h2
      · rw [h1]
        omega
      · have := hy z h2
        omega

theorem sortByKey_perm (l : List (Nat × Nat)) : (sortByKey l).Perm l := by
  induction l with
  | nil => exact List.Perm.refl _
  | cons x xs ih =>
    unfold sortByKey
    exact ((insertSorted_perm x (sortByKey xs)).trans (List.Perm.cons x ih))

theorem sortByKey_pairwise (l : List (Nat × Nat)) :
    List.Pairwise (fun p q => p.2 ≤ q.2) (sortByKey l) := by
  induction l with
  | nil => simp [sortByKey]
  | cons x xs ih => exact insertSorted_pairwise x (sortByKey xs) ih

theorem cumulate_map_fst (acc : Nat) (l : List (Nat × Nat)) :
    (cumulate acc l).map (·.1) = l.map (·.1) := by
  induction l generalizing acc with
  | nil => rfl
  | cons x xs ih =>
    cases x with
    | mk a b => simp [cumulate, ih]

theorem cumulate_take (k acc : Nat) (l : List (Nat × Nat)) :
    (cumulate acc l).take k = cumulate acc (l.take k) := by
  induction l generalizing acc k with
  | nil => simp [cumulate]
  | cons x xs ih =>
    cases x with
    | mk a b =>
      cases k with
      | zero => simp [cumulate]
      | succ k2 => simp [cumulate, ih]

theorem takeWhile_eq_take_length (p : Nat × Nat → Bool) (l : List (Nat × Nat)) :
    l.takeWhile p = l.take (l.takeWhile p).length := by
  induction l with
  | nil => rfl
  | cons x xs ih =>
    rw [List.takeWhile_cons]
    by_cases hp : p x
    · rw [if_pos hp]
      simp only [List.length_cons, List.take_succ_cons]
      rw [← ih]
    · rw [if_neg hp]
      rfl

theorem cumulate_last (acc : Nat) (x : Nat × Nat) (l : List (Nat × Nat)) :
    ∃ q ∈ cumulate acc (x :: l), q.2 = acc + ((x :: l).map (·.2)).sum := by
  induction l generalizing acc x with
  | nil =>
    cases x with
    | mk a b => exact ⟨(a, acc + b), List.mem_singleton.mpr rfl, by simp⟩
  | cons y ys ih =>
    cases x with
    | mk a b =>
      obtain ⟨q, hq1, hq2⟩ := ih (acc + b) y
      refine ⟨q, List.mem_cons_of_mem _ hq1, ?_⟩
      rw [hq2]
      simp
      ring

end MergeOptimizerLemmas

/-- Claim C8.  check_condition selects only original (non-proxy,
non-special) segments outside the excluded set; its result is a prefix of
the candidates ordered from smallest by available_points * max vector dim *
4 bytes whose cumulative (hence total) size stays below
max_segment_size * 1024 bytes; it returns the empty list exactly when the
raw candidate count is at most max_segments or fewer than three sized
candidates fit under the size bound, and otherwise at least three ids. -/
theorem check_condition_spec (ms cap : Nat) (segments : List MergeOptimizer.SegInfo)
    (excluded : List Nat) :
    ((MergeOptimizer.rawSegments segments excluded).length ≤ ms →
      MergeOptimizer.check_condition ms cap segments excluded = []) ∧
    (MergeOptimizer.check_condition ms cap segments excluded = [] ∨
      3 ≤ (MergeOptimizer.check_condition ms cap segments excluded).length) ∧
    (MergeOptimizer.check_condition ms cap segments excluded = [] ↔
      ((MergeOptimizer.rawSegments segments excluded).length ≤ ms ∨
        (MergeOptimizer.qualifiedCandidates cap segments excluded).length < 3)) ∧
    (∀ sid ∈ MergeOptimizer.check_condition ms cap segments excluded,
      ∃ s ∈ segments, s.sid = sid ∧ s.isProxy = false ∧ s.special = false ∧
        excluded.contains sid = false) ∧
    (∃ pref rest,
      MergeOptimizer.sortByKey (MergeOptimizer.sizedCandidates segments excluded) =
        pref ++ rest ∧
      MergeOptimizer.check_condition ms cap segments excluded = pref.map (·.1) ∧
      List.Pairwise (fun p q => p.2 ≤ q.2) pref ∧
      (pref ≠ [] → (pref.map (·.2)).sum < cap * 1024)) := by
  by_cases hms : (MergeOptimizer.rawSegments segments excluded).length ≤ ms
  · have hres : MergeOptimizer.check_condition ms cap segments excluded = [] := by
      unfold MergeOptimizer.check_condition
      rw [if_pos hms]
    refine ⟨fun _ => hres, Or.inl hres, ⟨fun _ => Or.inl hms, fun _ => hres⟩, ?_,
      ⟨[], MergeOptimizer.sortByKey (MergeOptimizer.sizedCandidates segments excluded),
        rfl, by rw [hres]; rfl, List.Pairwise.nil, fun hc => absurd rfl hc⟩⟩
    intro sid hsid
    rw [hres] at hsid
    simp at hsid
  · have hcheck : MergeOptimizer.check_condition ms cap segments excluded =
        (if (((MergeOptimizer.qualifiedCandidates cap segments excluded).take
            ((MergeOptimizer.rawSegments segments excluded).length - ms + 2)).map
            (·.1)).length < 3 then []
         else ((MergeOptimizer.qualifiedCandidates cap segments excluded).take
            ((MergeOptimizer.rawSegments segments excluded).length - ms + 2)).map (·.1)) := by
      unfold MergeOptimizer.check_condition
      rw [if_neg hms]
    have hmc3 : 3 ≤ (MergeOptimizer.rawSegments segments excluded).length - ms + 2 := by
      omega
    have hcandlen : (((MergeOptimizer.qualifiedCandidates cap segments excluded).take
        ((MergeOptimizer.rawSegments segments excluded).length - ms + 2)).map (·.1)).length =
        min ((MergeOptimizer.rawSegments segments excluded).length - ms + 2)
          (MergeOptimizer.qualifiedCandidates cap segments excluded).length := by
      rw [List.length_map, List.length_take]
    by_cases hq3 : (MergeOptimizer.qualifiedCandidates cap segments excluded).length < 3
    · have hres : MergeOptimizer.check_condition ms cap segments excluded = [] := by
        rw [hcheck, if_pos (by rw [hcandlen]; omega)]
      refine ⟨fun h => absurd h hms, Or.inl hres,
        ⟨fun _ => Or.inr hq3, fun _ => hres⟩, ?_,
        ⟨[], MergeOptimizer.sortByKey (MergeOptimizer.sizedCandidates segments excluded),
          rfl, by rw [hres]; rfl, List.Pairwise.nil, fun hc => absurd rfl hc⟩⟩
      intro sid hsid
      rw [hres] at hsid
      simp at hsid
    · have hres : MergeOptimizer.check_condition ms cap segments excluded =
          ((MergeOptimizer.qualifiedCandidates cap segments excluded).take
            ((MergeOptimizer.rawSegments segments excluded).length - ms + 2)).map (·.1) := by
        rw [hcheck, if_neg (by rw [hcandlen]; omega)]
      have hlen3 : 3 ≤ (MergeOptimizer.check_condition ms cap segments excluded).length := by
        rw [hres, hcandlen]
        omega
      have hqtake : MergeOptimizer.qualifiedCandidates cap segments excluded =
          (MergeOptimizer.cumulate 0
            (MergeOptimizer.sortByKey (MergeOptimizer.sizedCandidates segments excluded))).take
            (MergeOptimizer.qualifiedCandidates cap segments excluded).length :=
        MergeOptimizerLemmas.takeWhile_eq_take_length _ _
      refine ⟨fun h => absurd h hms, Or.inr hlen3, ?_, ?_, ?_⟩
      · constructor
        · intro he
          rw [he] at hlen3
          simp at hlen3
        · intro hor
          rcases hor with h1 | h2
          · exact absurd h1 hms
          · exact absurd h2 hq3
      · intro sid hsid
        rw [hres] at hsid
        obtain ⟨p, hp, hpeq⟩ := List.mem_map.mp hsid
        have hp2 : p ∈ MergeOptimizer.qualifiedCandidates cap segments excluded :=
          List.mem_of_mem_take hp
        have hp3 : p ∈ MergeOptimizer.cumulate 0
            (MergeOptimizer.sortByKey (MergeOptimizer.sizedCandidates segments excluded)) :=
          MergeOptimizerLemmas.mem_of_mem_takeWhile hp2
        have hp4 : p.1 ∈ (MergeOptimizer.cumulate 0
            (MergeOptimizer.sortByKey (MergeOptimizer.sizedCandidates segments excluded))).map
            (·.1) := List.mem_map_of_mem _ hp3
        rw [MergeOptimizerLemmas.cumulate_map_fst] at hp4
        have hp5 : p.1 ∈ (MergeOptimizer.sizedCandidates segments excluded).map (·.1) :=
          (((MergeOptimizerLemmas.sortByKey_perm _).map (·.1)).mem_iff).mp hp4
        unfold MergeOptimizer.sizedCandidates at hp5
        rw [List.map_map] at hp5
        obtain ⟨s, hs, hseq⟩ := List.mem_map.mp hp5
        have hsp := List.of_mem_filter hs
        have hs2 := List.mem_of_mem_filter hs
        have hraw := List.of_mem_filter hs2
        have hs3 := List.mem_of_mem_filter hs2
        simp only [Bool.and_eq_true, Bool.not_eq_true', Bool.not_eq_true] at hsp hraw
        refine ⟨s, hs3, ?_, hraw.1, hsp, ?_⟩
        · show s.sid = sid
          rw [← hpeq]
          exact hseq
        · rw [show sid = s.sid by rw [← hpeq]; exact hseq.symm]
          exact hraw.2
      · refine ⟨(MergeOptimizer.sortByKey
            (MergeOptimizer.sizedCandidates segments excluded)).take
            (min ((MergeOptimizer.rawSegments segments excluded).length - ms + 2)
              (MergeOptimizer.qualifiedCandidates cap segments excluded).length),
          (MergeOptimizer.sortByKey
            (MergeOptimizer.sizedCandidates segments excluded)).drop
            (min ((MergeOptimizer.rawSegments segments excluded).length - ms + 2)
              (MergeOptimizer.qualifiedCandidates cap segments excluded).length),
          (List.take_append_drop _ _).symm, ?_, ?_, ?_⟩
        · rw [hres]
          conv_lhs => rw [hqtake]
          rw [List.take_take, MergeOptimizerLemmas.cumulate_take,
            MergeOptimizerLemmas.cumulate_map_fst]
        · exact List.Pairwise.sublist (List.take_sublist _ _)
            (MergeOptimizerLemmas.sortByKey_pairwise _)
        · intro hne
          have hcumeq : (MergeOptimizer.qualifiedCandidates cap segments excluded).take
              ((MergeOptimizer.rawSegments segments excluded).length - ms + 2) =
              MergeOptimizer.cumulate 0 ((MergeOptimizer.sortByKey
                (MergeOptimizer.sizedCandidates segments excluded)).take
                (min ((MergeOptimizer.rawSegments segments excluded).length - ms + 2)
                  (MergeOptimizer.qualifiedCandidates cap segments excluded).length)) := by
            conv_lhs => rw [hqtake]
            rw [List.take_take, MergeOptimizerLemmas.cumulate_take]
          obtain ⟨x, l2, hxl⟩ := List.exists_cons_of_ne_nil hne
          obtain ⟨q, hq1, hq2⟩ := MergeOptimizerLemmas.cumulate_last 0 x l2
          rw [← hxl, ← hcumeq] at hq1
          have hqmem : q ∈ MergeOptimizer.qualifiedCandidates cap segments excluded :=
            List.mem_of_mem_take hq1
          have hqmem2 : q ∈ (MergeOptimizer.cumulate 0 (MergeOptimizer.sortByKey
              (MergeOptimizer.sizedCandidates segments excluded))).takeWhile
              (fun p => p.2 < cap * 1024) := hqmem
          have hcond := List.mem_takeWhile_imp hqmem2
          simp only [decide_eq_true_eq] at hcond
          rw [hxl]
          omega

/-- Witness for C8 at the three-segment holder of the in-repo test
(dimension 256, 40, 50 and 60 points, max_segments 1): with a 100 KiB size
cap only two candidates fit and nothing is merged; with 200 KiB all three
are selected. -/
theorem check_condition_spec_witness :
    MergeOptimizer.check_condition 1 100
      [⟨1, false, false, 40, 256⟩, ⟨2, false, false, 50, 256⟩, ⟨3, false, false, 60, 256⟩]
      [] = [] ∧
    ((MergeOptimizer.rawSegments
      [⟨1, false, false, 40, 256⟩, ⟨2, false, false, 50, 256⟩,
        (⟨3, false, false, 60, 256⟩ : MergeOptimizer.SegInfo)] []).length ≤ 1 ∨
      (MergeOptimizer.qualifiedCandidates 100
        [⟨1, false, false, 40, 256⟩, ⟨2, false, false, 50, 256⟩,
          ⟨3, false, false, 60, 256⟩] []).length < 3) ∧
    3 ≤ (MergeOptimizer.check_condition 1 200
      [⟨1, false, false, 40, 256⟩, ⟨2, false, false, 50, 256⟩, ⟨3, false, false, 60, 256⟩]
      []).length := by
  refine ⟨?_, ?_, ?_⟩
  · exact (check_condition_spec 1 100
      [⟨1, false, false, 40, 256⟩, ⟨2, false, false, 50, 256⟩, ⟨3, false, false, 60, 256⟩]
      []).2.2.1.mpr (by decide)
  · exact (check_condition_spec 1 100
      [⟨1, false, false, 40, 256⟩, ⟨2, false, false, 50, 256⟩, ⟨3, false, false, 60, 256⟩]
      []).2.2.1.mp (by decide)
  · rcases (check_condition_spec 1 200
      [⟨1, false, false, 40, 256⟩, ⟨2, false, false, 50, 256⟩, ⟨3, false, false, 60, 256⟩]
      []).2.1 with he | h3
    · exact absurd he (by decide)
    · exact h3

namespace Seg

/-- Modelled from the spec: the per-point record of a plain Segment (the
Segment implementation itself is not under src).  Vector data and payload
are opaque tokens; version is the per-point version, set to the op_num of
every applied operation (spec section 3, Invariants). -/
structure PointData where
  version : Nat
  vecs : Nat
  payload : Nat
deriving Repr, DecidableEq, Inhabited

/-- Modelled from the spec: a plain Segment as the proxy and the holder use
it, reduced to its id tracker content: an association list from external
point id to the point record. -/
structure PlainSeg where
  points : List (Nat × PointData)
deriving Repr, DecidableEq, Inhabited

/-- Keys of the live points; a well-formed segment has no duplicate ids
(spec section 3: within one segment a given PointId occupies exactly one
internal offset). -/
def WF (s : PlainSeg) : Prop := (s.points.map (·.1)).Nodup

instance : DecidablePred WF := fun s => by
  unfold WF
  infer_instance

def find? (s : PlainSeg) (id : Nat) : Option PointData :=
  (s.points.find? (fun p => p.1 == id)).map (·.2)

/-- Modelled from the spec: SegmentEntry::has_point. -/
def has_point (s : PlainSeg) (id : Nat) : Bool := (find? s id).isSome

/-- Modelled from the spec: SegmentEntry::point_version. -/
def point_version (s : PlainSeg) (id : Nat) : Option Nat := (find? s id).map (·.version)

/-- Update or append of one association-list entry. -/
def setPoint (s : PlainSeg) (id : Nat) (d : PointData) : PlainSeg :=
  if has_point s id then ⟨s.points.map (fun p => if p.1 == id then (id, d) else p)⟩
  else ⟨s.points ++ [(id, d)]⟩

/-- Modelled from the spec: Segment::upsert_point.  A stale operation
(op_num strictly below the stored point version) is a no-op returning
false; otherwise the vectors are written, the payload of an existing point
is kept, and the version becomes op_num.  The spec states the staleness
guard in section 4.5 as op LE version, but its own write path (4.6) and
migration (4.7) copy the payload with set_full_payload at the same op_num
as the immediately preceding upsert_point, which requires equal-version
re-application; the guard is therefore modelled as strict, which keeps the
idempotence contract of section 7 (re-applying an operation at its original
op_num reproduces the same state). -/
def upsert_point (op id v : Nat) (s : PlainSeg) : PlainSeg × Bool :=
  match find? s id with
  | some d => if op < d.version then (s, false) else (setPoint s id ⟨op, v, d.payload⟩, true)
  | none => (setPoint s id ⟨op, v, 0⟩, true)

/-- Modelled from the spec: the shared shape of the point mutations that
require the point to exist (update_vectors, delete_vector, set_payload,
set_full_payload, delete_payload, clear_payload): under the version guard
the record is rewritten by f and the version becomes op_num; a missing
point is an error that leaves the segment unchanged (PointIdError), and the
error channel is irrelevant to the membership and visibility claims. -/
def guardedSet (op id : Nat) (f : PointData → PointData) (s : PlainSeg) : PlainSeg × Bool :=
  match find? s id with
  | some d =>
    if op < d.version then (s, false)
    else (setPoint s id { f d with version := op }, true)
  | none => (s, false)

/-- Modelled from the spec: Segment::set_full_payload. -/
def set_full_payload (op id p : Nat) (s : PlainSeg) : PlainSeg × Bool :=
  guardedSet op id (fun d => { d with payload := p }) s

/-- Modelled from the spec: Segment::set_payload (the merge with the
existing payload is abstracted to an opaque new payload token). -/
def set_payload (op id p : Nat) (s : PlainSeg) : PlainSeg × Bool :=
  guardedSet op id (fun d => { d with payload := p }) s

/-- Modelled from the spec: Segment::update_vectors. -/
def update_vectors (op id v : Nat) (s : PlainSeg) : PlainSeg × Bool :=
  guardedSet op id (fun d => { d with vecs := v }) s

/-- Modelled from the spec: Segment::delete_vector for a named vector (the
remaining vectors are abstracted to the zero token). -/
def delete_vector (op id : Nat) (s : PlainSeg) : PlainSeg × Bool :=
  guardedSet op id (fun d => { d with vecs := 0 }) s

/-- Modelled from the spec: Segment::delete_payload for one key (the
remaining payload is abstracted to the zero token). -/
def delete_payload (op id : Nat) (s : PlainSeg) : PlainSeg × Bool :=
  guardedSet op id (fun d => { d with payload := 0 }) s

/-- Modelled from the spec: Segment::clear_payload. -/
def clear_payload (op id : Nat) (s : PlainSeg) : PlainSeg × Bool :=
  guardedSet op id (fun d => { d with payload := 0 }) s

/-- Modelled from the spec: Segment::delete_point under the version guard. -/
def delete_point (op id : Nat) (s : PlainSeg) : PlainSeg × Bool :=
  match find? s id with
  | some d =>
    if op < d.version then (s, false)
    else (⟨s.points.filter (fun p => p.1 != id)⟩, true)
  | none => (s, false)

/-- Modelled from the spec: SegmentEntry::read_range with optional bounds,
reading the live ids inside [from; to). -/
def inRange (f t : Option Nat) (i : Nat) : Bool :=
  (match f with
   | none => true
   | some a => decide (a ≤ i)) &&
  (match t with
   | none => true
   | some b => decide (i < b))

def read_range (s : PlainSeg) (f t : Option Nat) : List Nat :=
  (s.points.map (·.1)).filter (inRange f t)

/-- Modelled from the spec: SegmentEntry::read_filtered with the filter
abstracted to a predicate on point ids. -/
def read_filtered (s : PlainSeg) (pred : Nat → Bool) : List Nat :=
  (s.points.map (·.1)).filter pred

end Seg

namespace SegLemmas

open Seg

theorem has_point_iff_mem (s : PlainSeg) (id : Nat) :
    has_point s id = true ↔ id ∈ s.points.map (·.1) := by
  unfold has_point find?
  rw [Option.isSome_map']
  rw [List.find?_isSome]
  constructor
  · rintro ⟨p, hp, hpe⟩
    rw [List.mem_map]
    exact ⟨p, hp, by simpa using hpe.symm⟩
  · intro h
    obtain ⟨p, hp, hpe⟩ := List.mem_map.mp h
    exact ⟨p, hp, by simp [hpe]⟩

theorem find?_map_replace (l : List (Nat × PointData)) (id : Nat) (d : PointData)
    (h : (l.find? (fun p => p.1 == id)).isSome = true) :
    (l.map (fun p => if p.1 == id then (id, d) else p)).find? (fun p => p.1 == id) =
      some (id, d) := by
  induction l with
  | nil => simp at h
  | cons p ps ih =>
    by_cases hp : p.1 = id
    · have hhead : (if (p.1 == id) = true then (id, d) else p) = (id, d) := by simp [hp]
      rw [List.map_cons, hhead, List.find?_cons_of_pos _ (by simp)]
    · have hhead : (if (p.1 == id) = true then (id, d) else p) = p := by simp [hp]
      rw [List.map_cons, hhead, List.find?_cons_of_neg _ (by simpa using hp)]
      apply ih
      rw [List.find?_cons_of_neg _ (by simpa using hp)] at h
      exact h

theorem find?_map_replace_ne (l : List (Nat × PointData)) (id x : Nat) (d : PointData)
    (hx : x ≠ id) :
    (l.map (fun p => if p.1 == id then (id, d) else p)).find? (fun p => p.1 == x) =
      l.find? (fun p => p.1 == x) := by
  induction l with
  | nil => rfl
  | cons p ps ih =>
    by_cases hp : p.1 = id
    · have hhead : (if (p.1 == id) = true then (id, d) else p) = (id, d) := by simp [hp]
      rw [List.map_cons, hhead,
        List.find?_cons_of_neg _ (by simpa using (Ne.symm hx)),
        List.find?_cons_of_neg _ (by rw [hp]; simpa using (Ne.symm hx))]
      exact ih
    · have hhead : (if (p.1 == id) = true then (id, d) else p) = p := by simp [hp]
      rw [List.map_cons, hhead]
      by_cases hpx : p.1 = x
      · rw [List.find?_cons_of_pos _ (by simpa using hpx),
          List.find?_cons_of_pos _ (by simpa using hpx)]
      · rw [List.find?_cons_of_neg _ (by simpa using hpx),
          List.find?_cons_of_neg _ (by simpa using hpx)]
        exact ih

theorem find?_append_nomatch (l1 l2 : List (Nat × PointData)) (x : Nat)
    (h : l1.find? (fun p => p.1 == x) = none) :
    (l1 ++ l2).find? (fun p => p.1 == x) = l2.find? (fun p => p.1 == x) := by
  induction l1 with
  | nil => rfl
  | cons p ps ih =>
    by_cases hp : p.1 = x
    · rw [List.find?_cons_of_pos _ (by simpa using hp)] at h
      simp at h
    · rw [List.find?_cons_of_neg _ (by simpa using hp)] at h
      rw [List.cons_append, List.find?_cons_of_neg _ (by simpa using hp)]
      exact ih h

theorem find?_isSome_of_has (s : PlainSeg) (id : Nat) (h : has_point s id = true) :
    (s.points.find? (fun p => p.1 == id)).isSome = true := by
  unfold has_point find? at h
  rw [Option.isSome_map'] at h
  exact h

theorem find?_none_of_not_has (s : PlainSeg) (id : Nat) (h : ¬ has_point s id = true) :
    s.points.find? (fun p => p.1 == id) = none := by
  unfold has_point find? at h
  rw [Option.isSome_map'] at h
  cases hf : s.points.find? (fun p => p.1 == id) with
  | none => rfl
  | some p =>
    rw [hf] at h
    simp at h

theorem find?_setPoint_self (s : PlainSeg) (id : Nat) (d : PointData) :
    find? (setPoint s id d) id = some d := by
  unfold setPoint
  by_cases h : has_point s id = true
  · rw [if_pos h]
    unfold find?
    rw [find?_map_replace _ _ _ (find?_isSome_of_has s id h)]
    rfl
  · rw [if_neg h]
    unfold find?
    rw [find?_append_nomatch _ _ _ (find?_none_of_not_has s id h)]
    rw [List.find?_cons_of_pos _ (by simp)]
    rfl

theorem find?_append_single (l : List (Nat × PointData)) (id x : Nat) (d : PointData)
    (hx : x ≠ id) :
    (l ++ [(id, d)]).find? (fun p => p.1 == x) = l.find? (fun p => p.1 == x) := by
  induction l with
  | nil =>
    simp only [List.nil_append, List.find?_nil]
    rw [List.find?_cons_of_neg _ (by simpa using (Ne.symm hx)), List.find?_nil]
  | cons q qs ih =>
    by_cases hq : q.1 = x
    · rw [List.cons_append, List.find?_cons_of_pos _ (by simpa using hq),
        List.find?_cons_of_pos _ (by simpa using hq)]
    · rw [List.cons_append, List.find?_cons_of_neg _ (by simpa using hq),
        List.find?_cons_of_neg _ (by simpa using hq), ih]

theorem find?_setPoint_ne (s : PlainSeg) (id x : Nat) (d : PointData) (hx : x ≠ id) :
    find? (setPoint s id d) x = find? s x := by
  unfold setPoint
  by_cases h : has_point s id = true
  · rw [if_pos h]
    unfold find?
    rw [find?_map_replace_ne _ _ _ _ hx]
  · rw [if_neg h]
    unfold find?
    congr 1
    exact find?_append_single _ _ _ _ hx

theorem keys_setPoint (s : PlainSeg) (id : Nat) (d : PointData) :
    (setPoint s id d).points.map (·.1) =
      if has_point s id then s.points.map (·.1) else s.points.map (·.1) ++ [id] := by
  unfold setPoint
  by_cases h : has_point s id = true
  · rw [if_pos h, if_pos h]
    show (s.points.map (fun p => if p.1 == id then (id, d) else p)).map (·.1) = _
    rw [List.map_map]
    apply List.map_congr_left
    intro p _
    by_cases hp : p.1 = id
    · simp [hp]
    · simp [hp]
  · rw [if_neg h, if_neg h]
    show (s.points ++ [(id, d)]).map (·.1) = _
    rw [List.map_append]
    rfl

theorem WF_setPoint (s : PlainSeg) (id : Nat) (d : PointData) (h : WF s) :
    WF (setPoint s id d) := by
  unfold WF
  rw [keys_setPoint]
  by_cases hh : has_point s id = true
  · rw [if_pos hh]; exact h
  · rw [if_neg hh]
    refine List.Nodup.append h (List.nodup_singleton id) ?_
    intro a ha hmem
    rw [List.mem_singleton] at hmem
    subst hmem
    exact hh ((has_point_iff_mem s a).mpr ha)

theorem find?_guardedSet_ne (op id x : Nat) (g : PointData → PointData) (s : PlainSeg)
    (hx : x ≠ id) :
    find? (guardedSet op id g s).1 x = find? s x := by
  unfold guardedSet
  cases hf : find? s id with
  | none => rfl
  | some d =>
    dsimp only
    by_cases hop : op < d.version
    · rw [if_pos hop]
    · rw [if_neg hop]
      exact find?_setPoint_ne _ _ _ _ hx

theorem keys_guardedSet (op id : Nat) (g : PointData → PointData) (s : PlainSeg) :
    (guardedSet op id g s).1.points.map (·.1) = s.points.map (·.1) := by
  unfold guardedSet
  cases hf : find? s id with
  | none => rfl
  | some d =>
    dsimp only
    by_cases hop : op < d.version
    · rw [if_pos hop]
    · rw [if_neg hop]
      show (setPoint s id _).points.map (·.1) = _
      rw [keys_setPoint, if_pos (by unfold has_point; rw [hf]; rfl)]

theorem WF_guardedSet (op id : Nat) (g : PointData → PointData) (s : PlainSeg) (h : WF s) :
    WF (guardedSet op id g s).1 := by
  unfold WF
  rw [keys_guardedSet]
  exact h

theorem has_point_guardedSet (op id x : Nat) (g : PointData → PointData) (s : PlainSeg) :
    has_point (guardedSet op id g s).1 x = has_point s x := by
  have h1 := has_point_iff_mem (guardedSet op id g s).1 x
  have h2 := has_point_iff_mem s x
  rw [keys_guardedSet] at h1
  cases hb : has_point s x
  · cases hb2 : has_point (guardedSet op id g s).1 x
    · rfl
    · exact absurd (h2.mpr (h1.mp hb2)) (by rw [hb]; exact fun h => nomatch h)
  · exact h1.mpr (h2.mp hb)

theorem find?_guardedSet_self (op id : Nat) (g : PointData → PointData) (s : PlainSeg)
    (d : PointData) (hf : find? s id = some d) (hop : ¬ op < d.version) :
    find? (guardedSet op id g s).1 id = some { g d with version := op } := by
  unfold guardedSet
  rw [hf]
  dsimp only
  rw [if_neg hop]
  exact find?_setPoint_self _ _ _

theorem guardedSet_stale (op id : Nat) (g : PointData → PointData) (s : PlainSeg)
    (d : PointData) (hf : find? s id = some d) (hop : op < d.version) :
    guardedSet op id g s = (s, false) := by
  unfold guardedSet
  rw [hf]
  dsimp only
  rw [if_pos hop]

theorem guardedSet_absent (op id : Nat) (g : PointData → PointData) (s : PlainSeg)
    (hf : find? s id = none) :
    guardedSet op id g s = (s, false) := by
  unfold guardedSet
  rw [hf]

theorem find?_upsert_ne (op id x v : Nat) (s : PlainSeg) (hx : x ≠ id) :
    find? (upsert_point op id v s).1 x = find? s x := by
  unfold upsert_point
  cases hf : find? s id with
  | none => exact find?_setPoint_ne _ _ _ _ hx
  | some d =>
    dsimp only
    by_cases hop : op < d.version
    · rw [if_pos hop]
    · rw [if_neg hop]
      exact find?_setPoint_ne _ _ _ _ hx

theorem find?_upsert_self_new (op id v : Nat) (s : PlainSeg) (hf : find? s id = none) :
    find? (upsert_point op id v s).1 id = some ⟨op, v, 0⟩ := by
  unfold upsert_point
  rw [hf]
  exact find?_setPoint_self _ _ _

theorem find?_upsert_self_upd (op id v : Nat) (s : PlainSeg) (d : PointData)
    (hf : find? s id = some d) (hop : ¬ op < d.version) :
    find? (upsert_point op id v s).1 id = some ⟨op, v, d.payload⟩ := by
  unfold upsert_point
  rw [hf]
  dsimp only
  rw [if_neg hop]
  exact find?_setPoint_self _ _ _

theorem upsert_stale (op id v : Nat) (s : PlainSeg) (d : PointData)
    (hf : find? s id = some d) (hop : op < d.version) :
    upsert_point op id v s = (s, false) := by
  unfold upsert_point
  rw [hf]
  dsimp only
  rw [if_pos hop]

theorem WF_upsert (op id v : Nat) (s : PlainSeg) (h : WF s) :
    WF (upsert_point op id v s).1 := by
  unfold upsert_point
  cases hf : find? s id with
  | none => exact WF_setPoint _ _ _ h
  | some d =>
    dsimp only
    by_cases hop : op < d.version
    · rw [if_pos hop]; exact h
    · rw [if_neg hop]; exact WF_setPoint _ _ _ h

theorem has_point_upsert (op id x v : Nat) (s : PlainSeg)
    (h : has_point (upsert_point op id v s).1 x = true) :
    x = id ∨ has_point s x = true := by
  by_cases hx : x = id
  · exact Or.inl hx
  · refine Or.inr ?_
    unfold has_point at h ⊢
    rw [find?_upsert_ne _ _ _ _ _ hx] at h
    exact h

theorem find?_filter_ne (l : List (Nat × PointData)) (id x : Nat) (hx : x ≠ id) :
    (l.filter (fun p => p.1 != id)).find? (fun p => p.1 == x) =
      l.find? (fun p => p.1 == x) := by
  induction l with
  | nil => rfl
  | cons p ps ih =>
    by_cases hp : p.1 = id
    · rw [List.filter_cons_of_neg (by simp [hp]),
        List.find?_cons_of_neg _ (by simp [hp]; exact fun h => hx h.symm), ih]
    · rw [List.filter_cons_of_pos (by simp [hp])]
      by_cases hpx : p.1 = x
      · rw [List.find?_cons_of_pos _ (by simpa using hpx),
          List.find?_cons_of_pos _ (by simpa using hpx)]
      · rw [List.find?_cons_of_neg _ (by simpa using hpx),
          List.find?_cons_of_neg _ (by simpa using hpx), ih]

theorem find?_filter_self (l : List (Nat × PointData)) (id : Nat) :
    (l.filter (fun p => p.1 != id)).find? (fun p => p.1 == id) = none := by
  apply List.find?_eq_none.mpr
  intro p hp
  have := List.of_mem_filter hp
  simpa using this

theorem find?_delete_ne (op id x : Nat) (s : PlainSeg) (hx : x ≠ id) :
    find? (delete_point op id s).1 x = find? s x := by
  unfold delete_point
  cases hf : find? s id with
  | none => rfl
  | some d =>
    dsimp only
    by_cases hop : op < d.version
    · rw [if_pos hop]
    · rw [if_neg hop]
      show (Option.map _ (List.find? _ _)) = _
      unfold find?
      rw [find?_filter_ne _ _ _ hx]

theorem find?_delete_self (op id : Nat) (s : PlainSeg) (d : PointData)
    (hf : find? s id = some d) (hop : ¬ op < d.version) :
    find? (delete_point op id s).1 id = none := by
  unfold delete_point
  rw [hf]
  dsimp only
  rw [if_neg hop]
  show (Option.map _ (List.find? _ _)) = _
  rw [find?_filter_self]
  rfl

theorem has_point_delete_sub (op id x : Nat) (s : PlainSeg)
    (h : has_point (delete_point op id s).1 x = true) :
    has_point s x = true := by
  by_cases hx : x = id
  · subst hx
    unfold delete_point at h
    cases hf : find? s x with
    | none => rw [hf] at h; exact h
    | some d =>
      unfold has_point
      rw [hf]
      rfl
  · unfold has_point at h ⊢
    rw [find?_delete_ne _ _ _ _ hx] at h
    exact h

theorem WF_delete (op id : Nat) (s : PlainSeg) (h : WF s) :
    WF (delete_point op id s).1 := by
  unfold delete_point
  cases hf : find? s id with
  | none => exact h
  | some d =>
    dsimp only
    by_cases hop : op < d.version
    · rw [if_pos hop]; exact h
    · rw [if_neg hop]
      unfold WF
      exact List.Nodup.sublist (List.Sublist.map _ (List.filter_sublist _)) h

end SegLemmas

namespace Proxy

open Seg

/-- ProxySegment state (proxy_segment.rs): the wrapped (read-only) segment, the
write segment overlay, and the deleted_points set; deleted_indexes and
created_indexes do not take part in the point read/write paths modelled
here.  The two segments are the spec-modelled plain segments of `Seg`. -/
structure ProxyState where
  wrapped : PlainSeg
  write : PlainSeg
  deleted_points : List Nat
deriving Repr, DecidableEq, Inhabited

/-- HashSet::insert on the insertion-ordered list model of a set. -/
def insertSet (x : Nat) (l : List Nat) : List Nat :=
  if l.contains x then l else l ++ [x]

/-- ProxySegment::move_if_exists (proxy_segment.rs lines 92-126): an id already
in deleted_points or absent from the wrapped segment is left alone (returns
false); otherwise its vectors and payload are read from the wrapped segment,
the id joins deleted_points, and the record is copied into the write segment
with upsert_point followed by set_full_payload at op_num. -/
def move_if_exists (op id : Nat) (st : ProxyState) : ProxyState × Bool :=
  if st.deleted_points.contains id then (st, false)
  else
    match Seg.find? st.wrapped id with
    | none => (st, false)
    | some d =>
      let del2 := insertSet id st.deleted_points
      let w1 := (Seg.upsert_point op id d.vecs st.write).1
      let w2 := (Seg.set_full_payload op id d.payload w1).1
      ({ wrapped := st.wrapped, write := w2, deleted_points := del2 }, true)

/-- The eight public point mutations of the proxy; the payload argument of a
mutation is the opaque payload token it writes. -/
inductive Mut where
  | upsert (op id v : Nat)
  | delPoint (op id : Nat)
  | updVec (op id v : Nat)
  | delVec (op id : Nat)
  | setFullPayloadM (op id p : Nat)
  | setPayloadM (op id p : Nat)
  | delPayloadM (op id : Nat)
  | clearPayloadM (op id : Nat)
deriving Repr, DecidableEq

/-- The proxy mutation dispatch (proxy_segment.rs lines 295-401): every
mutation except delete_point first calls move_if_exists and then applies the
underlying operation to the write segment; delete_point records the id in
deleted_points when the wrapped segment has it and deletes from the write
segment. -/
def applyMut (st : ProxyState) : Mut → ProxyState
  | .upsert op id v =>
    let st1 := (move_if_exists op id st).1
    { st1 with write := (Seg.upsert_point op id v st1.write).1 }
  | .delPoint op id =>
    let del2 :=
      if Seg.has_point st.wrapped id then insertSet id st.deleted_points
      else st.deleted_points
    { wrapped := st.wrapped, write := (Seg.delete_point op id st.write).1,
      deleted_points := del2 }
  | .updVec op id v =>
    let st1 := (move_if_exists op id st).1
    { st1 with write := (Seg.update_vectors op id v st1.write).1 }
  | .delVec op id =>
    let st1 := (move_if_exists op id st).1
    { st1 with write := (Seg.delete_vector op id st1.write).1 }
  | .setFullPayloadM op id p =>
    let st1 := (move_if_exists op id st).1
    { st1 with write := (Seg.set_full_payload op id p st1.write).1 }
  | .setPayloadM op id p =>
    let st1 := (move_if_exists op id st).1
    { st1 with write := (Seg.set_payload op id p st1.write).1 }
  | .delPayloadM op id =>
    let st1 := (move_if_exists op id st).1
    { st1 with write := (Seg.delete_payload op id st1.write).1 }
  | .clearPayloadM op id =>
    let st1 := (move_if_exists op id st).1
    { st1 with write := (Seg.clear_payload op id st1.write).1 }

/-- A fresh proxy over a segment: empty write segment, empty overlays. -/
def initProxy (w : PlainSeg) : ProxyState := ⟨w, ⟨[]⟩, []⟩

/-- The proxy state after a sequence of public mutations on a fresh proxy. -/
def runMuts (w : PlainSeg) (ms : List Mut) : ProxyState :=
  ms.foldl applyMut (initProxy w)

/-- The id set a plain-segment search or filtered read returns for a filter
(modelled from the spec: the matching live ids of the segment). -/
def matchIds (s : PlainSeg) (pred : Nat → Bool) : List Nat :=
  (s.points.map (·.1)).filter pred

/-- The wrapped-segment side of ProxySegment::search / read_filtered
(proxy_segment.rs lines 171-231 and 465-497): when deleted_points is
non-empty the filter is augmented with must_not HasId(deleted_points). -/
def wrappedSearchIds (st : ProxyState) (pred : Nat → Bool) : List Nat :=
  if st.deleted_points.isEmpty then matchIds st.wrapped pred
  else matchIds st.wrapped (fun i => pred i && !st.deleted_points.contains i)

/-- ProxySegment::search: the wrapped result (deleted points filtered out)
concatenated with the write-segment result. -/
def proxy_search (st : ProxyState) (pred : Nat → Bool) : List Nat :=
  wrappedSearchIds st pred ++ matchIds st.write pred

/-- ProxySegment::has_point (proxy_segment.rs lines 510-517). -/
def proxy_has_point (st : ProxyState) (id : Nat) : Bool :=
  if st.deleted_points.contains id then Seg.has_point st.write id
  else Seg.has_point st.write id || Seg.has_point st.wrapped id

def insertNat (x : Nat) : List Nat → List Nat
  | [] => [x]
  | y :: ys => if y ≤ x then y :: insertNat x ys else x :: y :: ys

/-- sort_unstable on point ids. -/
def sortNat : List Nat → List Nat
  | [] => []
  | x :: xs => insertNat x (sortNat xs)

/-- ProxySegment::read_range (proxy_segment.rs lines 498-508): wrapped range
ids, minus deleted_points when non-empty, appended with the write-segment
range ids, sorted. -/
def proxy_read_range (st : ProxyState) (f t : Option Nat) : List Nat :=
  let wr := Seg.read_range st.wrapped f t
  let wr2 :=
    if st.deleted_points.isEmpty then wr
    else wr.filter (fun i => !st.deleted_points.contains i)
  sortNat (wr2 ++ Seg.read_range st.write f t)

/-- ProxySegment::read_filtered (proxy_segment.rs lines 465-497): the wrapped
side sees the filter augmented with must_not HasId(deleted_points) when that
set is non-empty; results are appended and sorted. -/
def proxy_read_filtered (st : ProxyState) (pred : Nat → Bool) : List Nat :=
  let wr :=
    if st.deleted_points.isEmpty then Seg.read_filtered st.wrapped pred
    else Seg.read_filtered st.wrapped (fun i => pred i && !st.deleted_points.contains i)
  sortNat (wr ++ Seg.read_filtered st.write pred)

end Proxy

namespace ProxyLemmas

open Seg Proxy

theorem insertNat_perm (x : Nat) (l : List Nat) : (insertNat x l).Perm (x :: l) := by
  induction l with
  | nil => exact List.Perm.refl _
  | cons y ys ih =>
    unfold insertNat
    by_cases h : y ≤ x
    · rw [if_pos h]
      exact (ih.cons y).trans (List.Perm.swap x y ys)
    · rw [if_neg h]

theorem sortNat_perm (l : List Nat) : (sortNat l).Perm l := by
  induction l with
  | nil => exact List.Perm.refl _
  | cons x xs ih =>
    exact (insertNat_perm x (sortNat xs)).trans (ih.cons x)

theorem contains_insertSet_self (x : Nat) (l : List Nat) :
    (insertSet x l).contains x = true := by
  unfold insertSet
  by_cases h : l.contains x = true
  · rw [if_pos h]; exact h
  · rw [if_neg h]
    simp

theorem contains_insertSet_mono (x y : Nat) (l : List Nat)
    (h : l.contains y = true) : (insertSet x l).contains y = true := by
  unfold insertSet
  by_cases hc : l.contains x = true
  · rw [if_pos hc]; exact h
  · rw [if_neg hc]
    have hy : y ∈ l := by simpa using h
    simpa using Or.inl hy

theorem insertSet_of_not_contains (x : Nat) (l : List Nat)
    (h : l.contains x = false) : insertSet x l = l ++ [x] := by
  unfold insertSet
  rw [h]
  rfl

/-- The hiding invariant of a proxy state over the original wrapped segment w:
the wrapped segment is untouched, the write segment stays well-formed, and
every point of the write segment is either recorded in deleted_points or was
never in the wrapped segment. -/
def Inv (w : PlainSeg) (st : ProxyState) : Prop :=
  st.wrapped = w ∧ WF st.write ∧
  ∀ id, Seg.has_point st.write id = true →
    st.deleted_points.contains id = true ∨ Seg.has_point w id = false

theorem has_point_of_find?_eq (s : PlainSeg) (id : Nat) (d : PointData)
    (h : Seg.find? s id = some d) : Seg.has_point s id = true := by
  unfold has_point
  rw [h]
  rfl

theorem move_if_exists_inv (w : PlainSeg) (op id : Nat) (st : ProxyState)
    (h : Inv w st) :
    Inv w (move_if_exists op id st).1 ∧
      ((move_if_exists op id st).1.deleted_points.contains id = true ∨
        Seg.has_point w id = false) ∧
      (∀ x, st.deleted_points.contains x = true →
        (move_if_exists op id st).1.deleted_points.contains x = true) := by
  obtain ⟨hw, hwf, hinv⟩ := h
  unfold move_if_exists
  by_cases hc : st.deleted_points.contains id = true
  · rw [if_pos hc]
    exact ⟨⟨hw, hwf, hinv⟩, Or.inl hc, fun x hx => hx⟩
  · rw [if_neg hc]
    cases hf : Seg.find? st.wrapped id with
    | none =>
      refine ⟨⟨hw, hwf, hinv⟩, Or.inr ?_, fun x hx => hx⟩
      rw [← hw]
      unfold has_point
      rw [hf]
      rfl
    | some d =>
      dsimp only
      refine ⟨⟨hw, ?_, ?_⟩, Or.inl (contains_insertSet_self id _), ?_⟩
      · exact SegLemmas.WF_guardedSet _ _ _ _ (SegLemmas.WF_upsert _ _ _ _ hwf)
      · intro x hx
        have hx2 : Seg.has_point
            (Seg.set_full_payload op id d.payload
              (Seg.upsert_point op id d.vecs st.write).1).1 x = true := hx
        unfold set_full_payload at hx2
        rw [SegLemmas.has_point_guardedSet] at hx2
        rcases SegLemmas.has_point_upsert _ _ _ _ _ hx2 with hxid | hxold
        · subst hxid
          exact Or.inl (contains_insertSet_self x _)
        · rcases hinv x hxold with hdel | hnw
          · exact Or.inl (contains_insertSet_mono _ _ _ hdel)
          · exact Or.inr hnw
      · intro x hx
        exact contains_insertSet_mono _ _ _ hx

theorem applyMut_inv (w : PlainSeg) (st : ProxyState) (m : Mut) (h : Inv w st) :
    Inv w (applyMut st m) := by
  have gstep : ∀ op id st1, Inv w st1 →
      ∀ g, Inv w { st1 with write := (Seg.guardedSet op id g st1.write).1 } := by
    intro op id st1 h1 g
    obtain ⟨hw1, hwf1, hinv1⟩ := h1
    refine ⟨hw1, SegLemmas.WF_guardedSet _ _ _ _ hwf1, ?_⟩
    intro x hx
    rw [SegLemmas.has_point_guardedSet] at hx
    exact hinv1 x hx
  cases m with
  | upsert op id v =>
    obtain ⟨⟨hw1, hwf1, hinv1⟩, hid, _⟩ := move_if_exists_inv w op id st h
    refine ⟨hw1, SegLemmas.WF_upsert _ _ _ _ hwf1, ?_⟩
    intro x hx
    rcases SegLemmas.has_point_upsert _ _ _ _ _ hx with hxid | hxold
    · subst hxid
      exact hid
    · exact hinv1 x hxold
  | delPoint op id =>
    obtain ⟨hw, hwf, hinv⟩ := h
    refine ⟨hw, SegLemmas.WF_delete _ _ _ hwf, ?_⟩
    intro x hx
    have hx0 := SegLemmas.has_point_delete_sub _ _ _ _ hx
    rcases hinv x hx0 with hdel | hnw
    · refine Or.inl ?_
      show (if Seg.has_point st.wrapped id then insertSet id st.deleted_points
            else st.deleted_points).contains x = true
      by_cases hwp : Seg.has_point st.wrapped id = true
      · rw [if_pos hwp]
        exact contains_insertSet_mono _ _ _ hdel
      · rw [if_neg hwp]
        exact hdel
    · exact Or.inr hnw
  | updVec op id v =>
    exact gstep op id _ (move_if_exists_inv w op id st h).1 _
  | delVec op id =>
    exact gstep op id _ (move_if_exists_inv w op id st h).1 _
  | setFullPayloadM op id p =>
    exact gstep op id _ (move_if_exists_inv w op id st h).1 _
  | setPayloadM op id p =>
    exact gstep op id _ (move_if_exists_inv w op id st h).1 _
  | delPayloadM op id =>
    exact gstep op id _ (move_if_exists_inv w op id st h).1 _
  | clearPayloadM op id =>
    exact gstep op id _ (move_if_exists_inv w op id st h).1 _

theorem foldl_inv (w : PlainSeg) (ms : List Mut) (st : ProxyState) (h : Inv w st) :
    Inv w (ms.foldl applyMut st) := by
  induction ms generalizing st with
  | nil => exact h
  | cons m ms ih => exact ih _ (applyMut_inv w st m h)

theorem runMuts_inv (w : PlainSeg) (ms : List Mut) :
    Inv w (runMuts w ms) := by
  unfold runMuts
  refine foldl_inv w ms (initProxy w) ⟨rfl, List.nodup_nil, ?_⟩
  intro id hid
  exact absurd hid (by unfold initProxy has_point find?; simp)

theorem nodup_hidden_append (w : PlainSeg) (del : List Nat) (wr : PlainSeg)
    (l1 l2 : List Nat)
    (h1 : l1.Nodup) (h2 : l2.Nodup)
    (hsub1 : ∀ i ∈ l1, Seg.has_point w i = true ∧ del.contains i = false)
    (hsub2 : ∀ i ∈ l2, Seg.has_point wr i = true)
    (hinv : ∀ i, Seg.has_point wr i = true →
      del.contains i = true ∨ Seg.has_point w i = false) :
    (l1 ++ l2).Nodup := by
  refine List.Nodup.append h1 h2 ?_
  intro a ha1 ha2
  obtain ⟨hwp, hnd⟩ := hsub1 a ha1
  rcases hinv a (hsub2 a ha2) with hdel | hnw
  · rw [hnd] at hdel
    exact nomatch hdel
  · rw [hwp] at hnw
    exact nomatch hnw

theorem nodup_keys_filter (s : PlainSeg) (h : WF s) (p : Nat → Bool) :
    ((s.points.map (·.1)).filter p).Nodup :=
  List.Nodup.filter _ h

theorem has_point_of_mem_keys_filter (s : PlainSeg) (p : Nat → Bool) (i : Nat)
    (h : i ∈ (s.points.map (·.1)).filter p) : Seg.has_point s i = true :=
  (SegLemmas.has_point_iff_mem s i).mpr (List.mem_filter.mp h).1

theorem contains_eq_false_of_isEmpty (l : List Nat) (h : l.isEmpty = true) (i : Nat) :
    l.contains i = false := by
  rw [List.isEmpty_iff] at h
  subst h
  rfl

theorem find?_eq_none_of_has_false (s : PlainSeg) (id : Nat)
    (h : Seg.has_point s id = false) : Seg.find? s id = none := by
  unfold has_point at h
  cases hf : Seg.find? s id with
  | none => rfl
  | some d => rw [hf] at h; exact nomatch h

theorem readers_of_inv (w : PlainSeg) (st : ProxyState) (hw : WF w) (h : Inv w st) :
    (∀ pred, (proxy_search st pred).Nodup) ∧
    (∀ f t, (proxy_read_range st f t).Nodup) ∧
    (∀ pred, (proxy_read_filtered st pred).Nodup) ∧
    (∀ pred id, st.deleted_points.contains id = true →
      id ∉ wrappedSearchIds st pred) ∧
    (∀ id, proxy_has_point st id = true ↔
      Seg.has_point st.write id = true ∨
        (Seg.has_point w id = true ∧ st.deleted_points.contains id = false)) := by
  obtain ⟨hwr, hwf, hinv⟩ := h
  have hbool : ∀ i, st.deleted_points.contains i = true ∨
      st.deleted_points.contains i = false := by
    intro i
    cases st.deleted_points.contains i
    · exact Or.inr rfl
    · exact Or.inl rfl
  refine ⟨?_, ?_, ?_, ?_, ?_⟩
  · intro pred
    unfold proxy_search wrappedSearchIds
    by_cases hemp : st.deleted_points.isEmpty = true
    · rw [if_pos hemp]
      refine nodup_hidden_append w st.deleted_points st.write _ _
        (by rw [hwr]; exact nodup_keys_filter w hw pred)
        (nodup_keys_filter st.write hwf pred) ?_ ?_ hinv
      · intro i hi
        refine ⟨by rw [← hwr]; exact has_point_of_mem_keys_filter _ _ _ hi, ?_⟩
        exact contains_eq_false_of_isEmpty _ hemp i
      · intro i hi
        exact has_point_of_mem_keys_filter _ _ _ hi
    · rw [if_neg hemp]
      refine nodup_hidden_append w st.deleted_points st.write _ _
        (by rw [hwr]; exact nodup_keys_filter w hw _)
        (nodup_keys_filter st.write hwf pred) ?_ ?_ hinv
      · intro i hi
        refine ⟨by rw [← hwr]; exact has_point_of_mem_keys_filter _ _ _ hi, ?_⟩
        have := (List.mem_filter.mp hi).2
        have hni : (!st.deleted_points.contains i) = true := by
          cases hb : (pred i && !st.deleted_points.contains i)
          · rw [hb] at this; exact nomatch this
          · rw [Bool.and_eq_true] at hb; exact hb.2
        cases hc : st.deleted_points.contains i
        · rfl
        · rw [hc] at hni; exact nomatch hni
      · intro i hi
        exact has_point_of_mem_keys_filter _ _ _ hi
  · intro f t
    unfold proxy_read_range
    refine ((sortNat_perm _).nodup_iff).mpr ?_
    by_cases hemp : st.deleted_points.isEmpty = true
    · rw [if_pos hemp]
      refine nodup_hidden_append w st.deleted_points st.write _ _
        (by rw [hwr]; exact nodup_keys_filter w hw _)
        (nodup_keys_filter st.write hwf _) ?_ ?_ hinv
      · intro i hi
        exact ⟨by rw [← hwr]; exact has_point_of_mem_keys_filter _ _ _ hi,
          contains_eq_false_of_isEmpty _ hemp i⟩
      · intro i hi
        exact has_point_of_mem_keys_filter _ _ _ hi
    · rw [if_neg hemp]
      refine nodup_hidden_append w st.deleted_points st.write _ _
        (List.Nodup.filter _ (by rw [hwr]; exact nodup_keys_filter w hw _))
        (nodup_keys_filter st.write hwf _) ?_ ?_ hinv
      · intro i hi
        obtain ⟨hi1, hi2⟩ := List.mem_filter.mp hi
        refine ⟨by rw [← hwr]; exact has_point_of_mem_keys_filter _ _ _ hi1, ?_⟩
        cases hc : st.deleted_points.contains i
        · rfl
        · rw [hc] at hi2; exact nomatch hi2
      · intro i hi
        exact has_point_of_mem_keys_filter _ _ _ hi
  · intro pred
    unfold proxy_read_filtered
    refine ((sortNat_perm _).nodup_iff).mpr ?_
    by_cases hemp : st.deleted_points.isEmpty = true
    · rw [if_pos hemp]
      refine nodup_hidden_append w st.deleted_points st.write _ _
        (by rw [hwr]; exact nodup_keys_filter w hw _)
        (nodup_keys_filter st.write hwf _) ?_ ?_ hinv
      · intro i hi
        exact ⟨by rw [← hwr]; exact has_point_of_mem_keys_filter _ _ _ hi,
          contains_eq_false_of_isEmpty _ hemp i⟩
      · intro i hi
        exact has_point_of_mem_keys_filter _ _ _ hi
    · rw [if_neg hemp]
      refine nodup_hidden_append w st.deleted_points st.write _ _
        (by rw [hwr]; exact nodup_keys_filter w hw _)
        (nodup_keys_filter st.write hwf _) ?_ ?_ hinv
      · intro i hi
        refine ⟨by rw [← hwr]; exact has_point_of_mem_keys_filter _ _ _ hi, ?_⟩
        have := (List.mem_filter.mp hi).2
        have hni : (!st.deleted_points.contains i) = true := by
          cases hb : (pred i && !st.deleted_points.contains i)
          · rw [hb] at this; exact nomatch this
          · rw [Bool.and_eq_true] at hb; exact hb.2
        cases hc : st.deleted_points.contains i
        · rfl
        · rw [hc] at hni; exact nomatch hni
      · intro i hi
        exact has_point_of_mem_keys_filter _ _ _ hi
  · intro pred id hdel
    unfold wrappedSearchIds
    by_cases hemp : st.deleted_points.isEmpty = true
    · rw [contains_eq_false_of_isEmpty _ hemp id] at hdel
      exact nomatch hdel
    · rw [if_neg hemp]
      intro hmem
      have := (List.mem_filter.mp hmem).2
      have hni : (!st.deleted_points.contains id) = true := by
        cases hb : (pred id && !st.deleted_points.contains id)
        · rw [hb] at this; exact nomatch this
        · rw [Bool.and_eq_true] at hb; exact hb.2
      rw [hdel] at hni
      exact nomatch hni
  · intro id
    unfold proxy_has_point
    rcases hbool id with hc | hc
    · rw [if_pos hc]
      constructor
      · intro h2
        exact Or.inl h2
      · rintro (h2 | ⟨h2, h3⟩)
        · exact h2
        · rw [hc] at h3; exact nomatch h3
    · rw [if_neg (by rw [hc]; exact fun h2 => nomatch h2)]
      rw [Bool.or_eq_true]
      constructor
      · rintro (h2 | h2)
        · exact Or.inl h2
        · exact Or.inr ⟨by rw [← hwr]; exact h2, hc⟩
      · rintro (h2 | ⟨h2, _⟩)
        · exact Or.inl h2
        · refine Or.inr ?_
          rw [hwr]
          exact h2

end ProxyLemmas

open Proxy ProxyLemmas in
/-- C4: ProxySegment::move_if_exists returns false and leaves the state
unchanged when the id is already in deleted_points, or when the wrapped
segment does not hold the point; otherwise it copies the point's vectors and
payload from the wrapped segment into the write segment via upsert_point and
set_full_payload at op_num (the copied record carries op_num as its version,
other write-segment points are untouched, and the version guard of those two
operations lets the copy through whenever the write segment holds no newer
record), inserts the id into deleted_points and returns true. -/
theorem move_if_exists_spec (op id : Nat) (st : Proxy.ProxyState) :
    (st.deleted_points.contains id = true → Proxy.move_if_exists op id st = (st, false)) ∧
    (st.deleted_points.contains id = false → Seg.has_point st.wrapped id = false →
      Proxy.move_if_exists op id st = (st, false)) ∧
    (∀ d, st.deleted_points.contains id = false → Seg.find? st.wrapped id = some d →
      (∀ dw, Seg.find? st.write id = some dw → dw.version ≤ op) →
      ∃ w2, Proxy.move_if_exists op id st =
          ({ wrapped := st.wrapped, write := w2,
             deleted_points := st.deleted_points ++ [id] }, true) ∧
        Seg.find? w2 id = some ⟨op, d.vecs, d.payload⟩ ∧
        (∀ x, x ≠ id → Seg.find? w2 x = Seg.find? st.write x)) := by
  refine ⟨?_, ?_, ?_⟩
  · intro hc
    unfold Proxy.move_if_exists
    rw [if_pos hc]
  · intro hc hnp
    unfold Proxy.move_if_exists
    rw [if_neg (by rw [hc]; exact fun h => nomatch h)]
    rw [find?_eq_none_of_has_false st.wrapped id hnp]
  · intro d hc hf hpv
    unfold Proxy.move_if_exists
    rw [if_neg (by rw [hc]; exact fun h => nomatch h), hf]
    dsimp only
    refine ⟨(Seg.set_full_payload op id d.payload
      (Seg.upsert_point op id d.vecs st.write).1).1, ?_, ?_, ?_⟩
    · rw [insertSet_of_not_contains _ _ hc]
    · show Seg.find? (Seg.set_full_payload op id d.payload
        (Seg.upsert_point op id d.vecs st.write).1).1 id = _
      unfold Seg.set_full_payload
      cases hfw : Seg.find? st.write id with
      | none =>
        rw [SegLemmas.find?_guardedSet_self op id _ _ ⟨op, d.vecs, 0⟩
          (SegLemmas.find?_upsert_self_new op id d.vecs st.write hfw) (Nat.lt_irrefl op)]
      | some dw =>
        rw [SegLemmas.find?_guardedSet_self op id _ _ ⟨op, d.vecs, dw.payload⟩
          (SegLemmas.find?_upsert_self_upd op id d.vecs st.write dw hfw
            (Nat.not_lt.mpr (hpv dw hfw))) (Nat.lt_irrefl op)]
    · intro x hx
      show Seg.find? (Seg.set_full_payload op id d.payload
        (Seg.upsert_point op id d.vecs st.write).1).1 x = _
      unfold Seg.set_full_payload
      rw [SegLemmas.find?_guardedSet_ne _ _ _ _ _ hx,
        SegLemmas.find?_upsert_ne _ _ _ _ _ hx]

/-- Witness for C4 at a concrete state: id 1 is in the wrapped segment with
vectors 5 and payload 7, absent from overlays; move_if_exists 3 1 migrates it. -/
theorem move_if_exists_spec_witness :
    (([] : List Nat).contains 1 = false) ∧
    ∃ w2, Proxy.move_if_exists 3 1 ⟨⟨[(1, ⟨0, 5, 7⟩)]⟩, ⟨[]⟩, []⟩ =
        (⟨⟨[(1, ⟨0, 5, 7⟩)]⟩, w2, [1]⟩, true) ∧
      Seg.find? w2 1 = some ⟨3, 5, 7⟩ ∧
      (∀ x, x ≠ 1 → Seg.find? w2 x = Seg.find? (⟨[]⟩ : Seg.PlainSeg) x) :=
  ⟨rfl, (move_if_exists_spec 3 1 ⟨⟨[(1, ⟨0, 5, 7⟩)]⟩, ⟨[]⟩, []⟩).2.2 ⟨0, 5, 7⟩
    rfl rfl (fun dw h => nomatch h)⟩

open Proxy ProxyLemmas in
/-- C1: on a well-formed wrapped segment, after any sequence of public proxy
mutations applied to a fresh ProxySegment, each point id appears to external
readers exactly once: the wrapped segment is unchanged, the write segment is
well-formed, any id held by the write segment is hidden on the wrapped side
(it is in deleted_points or never was in the wrapped segment), search,
read_range and read_filtered return duplicate-free id lists, the wrapped
search never returns a deleted id (its filter is augmented with must_not
HasId(deleted_points)), has_point consults only the write segment for ids in
deleted_points, and a point is visible exactly when the write segment holds
it or the wrapped segment holds it undeleted. -/
theorem proxy_exactly_once (w : Seg.PlainSeg) (ms : List Proxy.Mut) (hw : Seg.WF w) :
    (Proxy.runMuts w ms).wrapped = w ∧
    Seg.WF (Proxy.runMuts w ms).write ∧
    (∀ id, Seg.has_point (Proxy.runMuts w ms).write id = true →
      (Proxy.runMuts w ms).deleted_points.contains id = true ∨
        Seg.has_point w id = false) ∧
    (∀ pred, (Proxy.proxy_search (Proxy.runMuts w ms) pred).Nodup) ∧
    (∀ f t, (Proxy.proxy_read_range (Proxy.runMuts w ms) f t).Nodup) ∧
    (∀ pred, (Proxy.proxy_read_filtered (Proxy.runMuts w ms) pred).Nodup) ∧
    (∀ pred id, (Proxy.runMuts w ms).deleted_points.contains id = true →
      id ∉ Proxy.wrappedSearchIds (Proxy.runMuts w ms) pred) ∧
    (∀ id, (Proxy.runMuts w ms).deleted_points.contains id = true →
      Proxy.proxy_has_point (Proxy.runMuts w ms) id =
        Seg.has_point (Proxy.runMuts w ms).write id) ∧
    (∀ id, Proxy.proxy_has_point (Proxy.runMuts w ms) id = true ↔
      Seg.has_point (Proxy.runMuts w ms).write id = true ∨
        (Seg.has_point w id = true ∧
          (Proxy.runMuts w ms).deleted_points.contains id = false)) := by
  have hinv := runMuts_inv w ms
  have hr := readers_of_inv w (Proxy.runMuts w ms) hw hinv
  refine ⟨hinv.1, hinv.2.1, hinv.2.2, hr.1, hr.2.1, hr.2.2.1, hr.2.2.2.1, ?_, hr.2.2.2.2⟩
  intro id hdel
  unfold Proxy.proxy_has_point
  rw [if_pos hdel]

/-- Witness for C1: a two-point wrapped segment, one upsert migration and one
delete through the proxy. -/
theorem proxy_exactly_once_witness :
    Seg.WF (⟨[(1, ⟨0, 5, 0⟩), (2, ⟨0, 6, 0⟩)]⟩ : Seg.PlainSeg) ∧
    (Proxy.proxy_read_range
      (Proxy.runMuts ⟨[(1, ⟨0, 5, 0⟩), (2, ⟨0, 6, 0⟩)]⟩
        [Proxy.Mut.upsert 3 1 9, Proxy.Mut.delPoint 4 2]) none none).Nodup :=
  ⟨by decide,
    (proxy_exactly_once ⟨[(1, ⟨0, 5, 0⟩), (2, ⟨0, 6, 0⟩)]⟩
      [Proxy.Mut.upsert 3 1 9, Proxy.Mut.delPoint 4 2] (by decide)).2.2.2.2.1 none none⟩

namespace ProxyFlush

/-- The observable flush state of a ProxySegment (proxy_segment.rs struct
fields and lines 604-629): the three overlay sets, the version each
underlying segment reports when flushed (wrapped_persisted, write_persisted),
the wrapped segment's in-memory version (SegmentEntry::version, the highest
applied op_num), and the last_flushed_version cell. -/
structure FlushState where
  deleted_points : List Nat
  deleted_indexes : List Nat
  created_indexes : List Nat
  wrapped_persisted : Nat
  write_persisted : Nat
  wrapped_version : Nat
  last_flushed_version : Option Nat
deriving Repr, DecidableEq, Inhabited

/-- ProxySegment::flush (proxy_segment.rs lines 604-629): when the three
overlay sets are empty, flush the wrapped and write segments, record and
return the max of their versions; otherwise flush nothing and return
last_flushed_version, falling back to the wrapped segment's in-memory
version when no overlay-empty flush has ever completed
(`.unwrap_or_else(|| wrapped_segment.read().version())`).  The result is
(new state, returned sequence number, whether the underlying segments were
flushed). -/
def flush (st : FlushState) : FlushState × Nat × Bool :=
  if st.deleted_points.isEmpty && st.deleted_indexes.isEmpty &&
      st.created_indexes.isEmpty then
    let v := max st.wrapped_persisted st.write_persisted
    ({ st with last_flushed_version := some v }, v, true)
  else
    (st, st.last_flushed_version.getD st.wrapped_version, false)

end ProxyFlush

/-- C3 counterexample: on a proxy with a non-empty overlay on which no
overlay-empty flush has ever completed (last_flushed_version = none), flush
does not return "the last successfully flushed version" — none exists — but
falls back to the wrapped segment's in-memory version (9), a value larger
than both persisted versions (1 and 2), so the returned watermark is not a
flushed version at all. -/
theorem proxy_flush_claim_false :
    (ProxyFlush.flush ⟨[7], [], [], 1, 2, 9, none⟩).2.1 = 9 ∧
    (ProxyFlush.flush ⟨[7], [], [], 1, 2, 9, none⟩).2.2 = false ∧
    (⟨[7], [], [], 1, 2, 9, none⟩ : ProxyFlush.FlushState).last_flushed_version = none ∧
    (ProxyFlush.flush ⟨[7], [], [], 1, 2, 9, none⟩).2.1 ≠ max 1 2 := by
  refine ⟨rfl, rfl, rfl, ?_⟩
  decide

/-- C3 (amended): flush flushes the underlying segments exactly when the
three overlay sets are all empty, and then records and returns
max(wrapped_persisted, write_persisted); otherwise it flushes nothing and
returns last_flushed_version when an overlay-empty flush has completed
before, and the wrapped segment's current in-memory version otherwise. -/
theorem proxy_flush_spec (st : ProxyFlush.FlushState) :
    (st.deleted_points = [] → st.deleted_indexes = [] → st.created_indexes = [] →
      ProxyFlush.flush st =
        ({ st with
            last_flushed_version := some (max st.wrapped_persisted st.write_persisted) },
          max st.wrapped_persisted st.write_persisted, true)) ∧
    (st.deleted_points ≠ [] ∨ st.deleted_indexes ≠ [] ∨ st.created_indexes ≠ [] →
      ProxyFlush.flush st = (st, st.last_flushed_version.getD st.wrapped_version, false)) := by
  constructor
  · intro h1 h2 h3
    unfold ProxyFlush.flush
    rw [if_pos (by rw [h1, h2, h3]; rfl)]
  · intro h
    unfold ProxyFlush.flush
    rw [if_neg ?_]
    intro hb
    rw [Bool.and_eq_true, Bool.and_eq_true] at hb
    obtain ⟨⟨e1, e2⟩, e3⟩ := hb
    rw [List.isEmpty_iff] at e1 e2 e3
    rcases h with h | h | h
    · exact h e1
    · exact h e2
    · exact h e3

/-- Witness for C3: an overlay-empty proxy flushes and returns 6 = max 4 6;
a proxy with a deleted point and a recorded last flush returns that record. -/
theorem proxy_flush_spec_witness :
    ProxyFlush.flush ⟨[], [], [], 4, 6, 9, none⟩ =
      (⟨[], [], [], 4, 6, 9, some 6⟩, 6, true) ∧
    ProxyFlush.flush ⟨[7], [], [], 1, 2, 9, some 5⟩ =
      (⟨[7], [], [], 1, 2, 9, some 5⟩, 5, false) :=
  ⟨(proxy_flush_spec ⟨[], [], [], 4, 6, 9, none⟩).1 rfl rfl rfl,
    (proxy_flush_spec ⟨[7], [], [], 1, 2, 9, some 5⟩).2 (Or.inl (by decide))⟩

namespace Holder

open Seg

/-- A holder entry: the segment and whether it is appendable (the proxy and
plain appendable segments report is_appendable() = true, the indexed ones
false); the segment itself is the spec-modelled plain segment of `Seg`. -/
structure HSeg where
  appendable : Bool
  seg : PlainSeg
deriving Repr, DecidableEq, Inhabited

/-- SegmentHolder::segments as the ordered association list from SegmentId to
entry (BTreeMap iteration order). -/
def getSeg (h : List (Nat × HSeg)) (sid : Nat) : Option HSeg :=
  (h.find? (fun p => p.1 == sid)).map (·.2)

def setSeg (h : List (Nat × HSeg)) (sid : Nat) (hs : HSeg) : List (Nat × HSeg) :=
  h.map (fun p => if p.1 == sid then (sid, hs) else p)

/-- SegmentHolder::appendable_segments (segment_holder.rs lines 227-233). -/
def appendable_ids (h : List (Nat × HSeg)) : List Nat :=
  (h.filter (fun p => p.2.appendable)).map (·.1)

/-- The running state of apply_points_to_appendable: the holder, the
applied_points set in insertion order, and the trace of f invocations as
(point id, segment id the write lock was held on). -/
structure AptaState where
  holder : List (Nat × HSeg)
  applied : List Nat
  calls : List (Nat × Nat)
deriving Repr, DecidableEq, Inhabited

/-- Folding a fallible step over a list, stopping at the first error — the
shape of a Rust for-loop whose body ends in `?`. -/
def foldOpt {α β : Type} (g : β → α → Option β) : β → List α → Option β
  | b, [] => some b
  | b, a :: l =>
    match g b a with
    | none => none
    | some b2 => foldOpt g b2 l

/-- How many times f ran for pid in a state's call trace. -/
def callsFor (pid : Nat) (st : AptaState) : Nat :=
  (st.calls.filter (fun c => c.1 == pid)).length

/-- The migrated copy of a record d at op_num inside a target segment t:
upsert_point(op, pid, vectors) followed by set_full_payload(op, pid, payload)
(segment_holder.rs lines 389-393). -/
def migTarget (op pid : Nat) (d : PointData) (t : PlainSeg) : PlainSeg :=
  (Seg.set_full_payload op pid d.payload (Seg.upsert_point op pid d.vecs t).1).1

/-- The non-skip body of the apply_points closure (segment_holder.rs lines
381-400): an appendable current segment gets f directly; otherwise
aloha_random_write picks an appendable segment (modelled as the first id of
appendable_segments present in the holder, the deterministic choice of the
lock-free case; an empty candidate list is the ServiceError), the vectors and
payload are copied into it at op_num, the point is deleted from the source at
op_num, and f runs against the target.  Errors are none. -/
def applyBranch (op : Nat) (f : Nat → PlainSeg → Option (PlainSeg × Bool))
    (appIds : List Nat) (sid : Nat) (st : AptaState) (pid : Nat) (hs : HSeg) :
    Option AptaState :=
  if hs.appendable then
    match f pid hs.seg with
    | none => none
    | some x =>
      some ⟨setSeg st.holder sid ⟨hs.appendable, x.1⟩,
        st.applied ++ [pid], st.calls ++ [(pid, sid)]⟩
  else
    match appIds.find? (fun tid => (getSeg st.holder tid).isSome) with
    | none => none
    | some tid =>
      match getSeg st.holder tid with
      | none => none
      | some ths =>
        match Seg.find? hs.seg pid with
        | none => none
        | some d =>
          match f pid (migTarget op pid d ths.seg) with
          | none => none
          | some x =>
            some ⟨setSeg (setSeg st.holder sid
                ⟨hs.appendable, (Seg.delete_point op pid hs.seg).1⟩) tid
                ⟨ths.appendable, x.1⟩,
              st.applied ++ [pid], st.calls ++ [(pid, tid)]⟩

/-- One point of the apply_points closure (segment_holder.rs lines 375-401):
a point whose version in the current segment is at least op_num is recorded
as applied and skipped; otherwise the applyBranch body runs and the point is
recorded as applied. -/
def runPoint (op : Nat) (f : Nat → PlainSeg → Option (PlainSeg × Bool))
    (appIds : List Nat) (sid : Nat) (st : AptaState) (pid : Nat) :
    Option AptaState :=
  match getSeg st.holder sid with
  | none => none
  | some hs =>
    match Seg.point_version hs.seg pid with
    | some pv =>
      if op ≤ pv then some { st with applied := st.applied ++ [pid] }
      else applyBranch op f appIds sid st pid hs
    | none => applyBranch op f appIds sid st pid hs

/-- One segment of apply_points (segment_holder.rs lines 282-305): the ids
the segment currently holds are collected, then the closure runs for each. -/
def runSegment (op : Nat) (ids : List Nat)
    (f : Nat → PlainSeg → Option (PlainSeg × Bool)) (appIds : List Nat)
    (st : AptaState) (sid : Nat) : Option AptaState :=
  match getSeg st.holder sid with
  | none => some st
  | some hs =>
    foldOpt (runPoint op f appIds sid) st
      (ids.filter (fun pid => Seg.has_point hs.seg pid))

/-- SegmentHolder::apply_points_to_appendable (segment_holder.rs lines
359-403): appendable_segments is computed once, then apply_points iterates
the holder's segments in order. -/
def apply_points_to_appendable (op : Nat) (ids : List Nat)
    (f : Nat → PlainSeg → Option (PlainSeg × Bool))
    (h : List (Nat × HSeg)) : Option AptaState :=
  foldOpt (runSegment op ids f (appendable_ids h)) ⟨h, [], []⟩ (h.map (·.1))

end Holder

namespace HolderLemmas

open Seg Holder

theorem hfind?_replace_self (l : List (Nat × HSeg)) (id : Nat) (a : HSeg)
    (h : (l.find? (fun p => p.1 == id)).isSome = true) :
    (l.map (fun p => if p.1 == id then (id, a) else p)).find? (fun p => p.1 == id) =
      some (id, a) := by
  induction l with
  | nil => simp at h
  | cons p ps ih =>
    by_cases hp : p.1 = id
    · have hhead : (if (p.1 == id) = true then (id, a) else p) = (id, a) := by simp [hp]
      rw [List.map_cons, hhead, List.find?_cons_of_pos _ (by simp)]
    · have hhead : (if (p.1 == id) = true then (id, a) else p) = p := by simp [hp]
      rw [List.map_cons, hhead, List.find?_cons_of_neg _ (by simpa using hp)]
      apply ih
      rw [List.find?_cons_of_neg _ (by simpa using hp)] at h
      exact h

theorem hfind?_replace_ne (l : List (Nat × HSeg)) (id x : Nat) (a : HSeg)
    (hx : x ≠ id) :
    (l.map (fun p => if p.1 == id then (id, a) else p)).find? (fun p => p.1 == x) =
      l.find? (fun p => p.1 == x) := by
  induction l with
  | nil => rfl
  | cons p ps ih =>
    by_cases hp : p.1 = id
    · have hhead : (if (p.1 == id) = true then (id, a) else p) = (id, a) := by simp [hp]
      rw [List.map_cons, hhead,
        List.find?_cons_of_neg _ (by simpa using (Ne.symm hx)),
        List.find?_cons_of_neg _ (by rw [hp]; simpa using (Ne.symm hx))]
      exact ih
    · have hhead : (if (p.1 == id) = true then (id, a) else p) = p := by simp [hp]
      rw [List.map_cons, hhead]
      by_cases hpx : p.1 = x
      · rw [List.find?_cons_of_pos _ (by simpa using hpx),
          List.find?_cons_of_pos _ (by simpa using hpx)]
      · rw [List.find?_cons_of_neg _ (by simpa using hpx),
          List.find?_cons_of_neg _ (by simpa using hpx)]
        exact ih

theorem getSeg_setSeg_self (h : List (Nat × HSeg)) (sid : Nat) (hs : HSeg)
    (hex : (getSeg h sid).isSome = true) :
    getSeg (setSeg h sid hs) sid = some hs := by
  unfold getSeg at hex ⊢
  rw [Option.isSome_map'] at hex
  unfold setSeg
  rw [hfind?_replace_self h sid hs hex]
  rfl

theorem getSeg_setSeg_ne (h : List (Nat × HSeg)) (sid x : Nat) (hs : HSeg)
    (hx : x ≠ sid) :
    getSeg (setSeg h sid hs) x = getSeg h x := by
  unfold getSeg setSeg
  rw [hfind?_replace_ne h sid x hs hx]

theorem keys_setSeg (h : List (Nat × HSeg)) (sid : Nat) (hs : HSeg) :
    (setSeg h sid hs).map (·.1) = h.map (·.1) := by
  unfold setSeg
  rw [List.map_map]
  apply List.map_congr_left
  intro p _
  by_cases hp : p.1 = sid
  · simp [hp]
  · simp [hp]

theorem getSeg_isSome_of_mem_keys (h : List (Nat × HSeg)) (sid : Nat)
    (hm : sid ∈ h.map (·.1)) : (getSeg h sid).isSome = true := by
  unfold getSeg
  rw [Option.isSome_map', List.find?_isSome]
  obtain ⟨p, hp, hpe⟩ := List.mem_map.mp hm
  exact ⟨p, hp, by simp [hpe]⟩

theorem entry_of_getSeg (h : List (Nat × HSeg)) (sid : Nat) (hs : HSeg)
    (hg : getSeg h sid = some hs) : (sid, hs) ∈ h := by
  unfold getSeg at hg
  cases hf : h.find? (fun p => p.1 == sid) with
  | none => rw [hf] at hg; exact nomatch hg
  | some p =>
    rw [hf] at hg
    have hp1 : p.1 = sid := by simpa using List.find?_some hf
    have hp2 : p.2 = hs := by simpa using hg
    have hmem := List.mem_of_find?_eq_some hf
    rw [← hp1, ← hp2]
    exact hmem

theorem getSeg_of_mem_nodup (h : List (Nat × HSeg))
    (hnd : (h.map (·.1)).Nodup) (tid : Nat) (a : HSeg)
    (hm : (tid, a) ∈ h) : getSeg h tid = some a := by
  unfold getSeg
  induction h with
  | nil => exact absurd hm (List.not_mem_nil _)
  | cons p ps ih =>
    rw [List.map_cons, List.nodup_cons] at hnd
    rcases List.mem_cons.mp hm with hhead | htail
    · subst hhead
      rw [List.find?_cons_of_pos _ (by simp)]
      rfl
    · by_cases hp : p.1 = tid
      · exact absurd (by rw [hp]; exact List.mem_map.mpr ⟨(tid, a), htail, rfl⟩) hnd.1
      · rw [List.find?_cons_of_neg _ (by simpa using hp)]
        exact ih hnd.2 htail

theorem mem_appendable_ids_intro (h : List (Nat × HSeg)) (tid : Nat) (ths : HSeg)
    (hg : getSeg h tid = some ths) (hflag : ths.appendable = true) :
    tid ∈ appendable_ids h := by
  unfold appendable_ids
  refine List.mem_map.mpr ⟨(tid, ths), ?_, rfl⟩
  exact List.mem_filter.mpr ⟨entry_of_getSeg h tid ths hg, hflag⟩

theorem flag_of_mem_appendable_ids (h : List (Nat × HSeg))
    (hnd : (h.map (·.1)).Nodup) (tid : Nat) (hm : tid ∈ appendable_ids h) :
    ∃ ths, getSeg h tid = some ths ∧ ths.appendable = true := by
  unfold appendable_ids at hm
  obtain ⟨p, hp, hpe⟩ := List.mem_map.mp hm
  obtain ⟨hmem, hflag⟩ := List.mem_filter.mp hp
  refine ⟨p.2, ?_, hflag⟩
  rw [← hpe]
  exact getSeg_of_mem_nodup h hnd p.1 p.2 (by rw [← hpe] at hpe ⊢; exact hmem)

theorem foldOpt_append {α β : Type} (g : β → α → Option β) (b : β)
    (l1 l2 : List α) :
    foldOpt g b (l1 ++ l2) =
      match foldOpt g b l1 with
      | none => none
      | some b2 => foldOpt g b2 l2 := by
  induction l1 generalizing b with
  | nil => rfl
  | cons a l1 ih =>
    show (match g b a with
        | none => none
        | some b2 => foldOpt g b2 (l1 ++ l2)) =
      (match (match g b a with
          | none => none
          | some b2 => foldOpt g b2 l1) with
        | none => none
        | some b2 => foldOpt g b2 l2)
    cases g b a with
    | none => rfl
    | some b2 => exact ih b2

theorem foldOpt_cons {α β : Type} (g : β → α → Option β) (b : β) (a : α) (l : List α) :
    foldOpt g b (a :: l) =
      match g b a with
      | none => none
      | some b2 => foldOpt g b2 l := rfl

theorem foldOpt_inv {α β : Type} (g : β → α → Option β) (P : β → Prop)
    (l : List α)
    (hstep : ∀ b a, a ∈ l → P b → g b a = none ∨ ∃ b2, g b a = some b2 ∧ P b2)
    (b : β) (hb : P b) :
    foldOpt g b l = none ∨ ∃ b2, foldOpt g b l = some b2 ∧ P b2 := by
  induction l generalizing b with
  | nil => exact Or.inr ⟨b, rfl, hb⟩
  | cons a l ih =>
    rcases hstep b a (List.mem_cons_self a l) hb with hnone | ⟨b2, hsome, hb2⟩
    · refine Or.inl ?_
      unfold foldOpt
      rw [hnone]
    · have := ih (fun b a ha hb => hstep b a (List.mem_cons_of_mem _ ha) hb) b2 hb2
      unfold foldOpt
      rw [hsome]
      exact this

def pidAt (pid : Nat) (h : List (Nat × Holder.HSeg)) (x : Nat) :
    Option (Option Seg.PointData) :=
  (Holder.getSeg h x).map (fun hs => Seg.find? hs.seg pid)

def flagAt (h : List (Nat × Holder.HSeg)) (x : Nat) : Option Bool :=
  (Holder.getSeg h x).map (·.appendable)

/-- After f ran for pid, every copy of pid in the holder is gone or carries a
version at least op. -/
def Settled (op pid : Nat) (h : List (Nat × Holder.HSeg)) : Prop :=
  ∀ x hs, Holder.getSeg h x = some hs →
    Seg.find? hs.seg pid = none ∨
      ∃ d, Seg.find? hs.seg pid = some d ∧ op ≤ d.version

/-- pid lives in exactly the segment sid0, with a version below op. -/
def OwnerAt (op pid : Nat) (h : List (Nat × Holder.HSeg)) (sid0 : Nat) : Prop :=
  ∃ hs d, Holder.getSeg h sid0 = some hs ∧ Seg.find? hs.seg pid = some d ∧
    d.version < op ∧
    ∀ x hs2, Holder.getSeg h x = some hs2 → x ≠ sid0 →
      Seg.find? hs2.seg pid = none

theorem settled_of_pidAt_eq (op pid : Nat) (h1 h2 : List (Nat × Holder.HSeg))
    (hpe : ∀ x, pidAt pid h2 x = pidAt pid h1 x) (hs : Settled op pid h1) :
    Settled op pid h2 := by
  intro x hs2 hget2
  have he := hpe x
  unfold pidAt at he
  rw [hget2] at he
  cases hget1 : Holder.getSeg h1 x with
  | none => rw [hget1] at he; exact nomatch he
  | some hs1 =>
    rw [hget1] at he
    have hfe : Seg.find? hs2.seg pid = Seg.find? hs1.seg pid := by simpa using he
    rw [hfe]
    exact hs x hs1 hget1

theorem owner_of_pidAt_eq (op pid sid0 : Nat) (h1 h2 : List (Nat × Holder.HSeg))
    (hpe : ∀ x, pidAt pid h2 x = pidAt pid h1 x) (ho : OwnerAt op pid h1 sid0) :
    OwnerAt op pid h2 sid0 := by
  obtain ⟨hs1, d, hget1, hfd, hlt, huniq⟩ := ho
  have he := hpe sid0
  unfold pidAt at he
  rw [hget1] at he
  cases hget2 : Holder.getSeg h2 sid0 with
  | none => rw [hget2] at he; exact nomatch he
  | some hs2 =>
    rw [hget2] at he
    have hfe : Seg.find? hs2.seg pid = Seg.find? hs1.seg pid := by simpa using he
    refine ⟨hs2, d, hget2, by rw [hfe]; exact hfd, hlt, ?_⟩
    intro x hx2 hgetx2 hxne
    have hex := hpe x
    unfold pidAt at hex
    rw [hgetx2] at hex
    cases hgetx1 : Holder.getSeg h1 x with
    | none => rw [hgetx1] at hex; exact nomatch hex
    | some hx1 =>
      rw [hgetx1] at hex
      have hfex : Seg.find? hx2.seg pid = Seg.find? hx1.seg pid := by simpa using hex
      rw [hfex]
      exact huniq x hx1 hgetx1 hxne

theorem filterCalls_append_ne (cs : List (Nat × Nat)) (q t pid : Nat) (hq : q ≠ pid) :
    ((cs ++ [(q, t)]).filter (fun c => c.1 == pid)).length =
      (cs.filter (fun c => c.1 == pid)).length := by
  rw [List.filter_append]
  have hone : [(q, t)].filter (fun c => c.1 == pid) = [] := by simp [hq]
  rw [hone, List.append_nil]

theorem filterCalls_append_self (cs : List (Nat × Nat)) (t pid : Nat) :
    ((cs ++ [(pid, t)]).filter (fun c => c.1 == pid)).length =
      (cs.filter (fun c => c.1 == pid)).length + 1 := by
  rw [List.filter_append]
  have hone : [(pid, t)].filter (fun c => c.1 == pid) = [(pid, t)] := by simp
  rw [hone, List.length_append, List.length_cons, List.length_nil]

namespace HolderLemmas2

open Seg Holder HolderLemmas

theorem getSeg_setSeg_isSome (h : List (Nat × HSeg)) (sid tid : Nat) (u : HSeg)
    (hex : (getSeg h tid).isSome = true) (hex2 : (getSeg h sid).isSome = true) :
    (getSeg (setSeg h sid u) tid).isSome = true := by
  by_cases hts : tid = sid
  · subst hts
    rw [getSeg_setSeg_self _ _ _ hex2]
    rfl
  · rw [getSeg_setSeg_ne _ _ _ _ hts]
    exact hex

theorem pidAt_setSeg (pid : Nat) (h : List (Nat × HSeg)) (sid : Nat) (u : HSeg)
    (hex : (getSeg h sid).isSome = true) (y : Nat) :
    pidAt pid (setSeg h sid u) y =
      if y = sid then some (Seg.find? u.seg pid) else pidAt pid h y := by
  unfold pidAt
  by_cases hy : y = sid
  · subst hy
    rw [getSeg_setSeg_self _ _ _ hex, if_pos rfl]
    rfl
  · rw [getSeg_setSeg_ne _ _ _ _ hy, if_neg hy]

theorem flagAt_setSeg (h : List (Nat × HSeg)) (sid : Nat) (u : HSeg)
    (hex : (getSeg h sid).isSome = true) (y : Nat) :
    flagAt (setSeg h sid u) y =
      if y = sid then some u.appendable else flagAt h y := by
  unfold flagAt
  by_cases hy : y = sid
  · subst hy
    rw [getSeg_setSeg_self _ _ _ hex, if_pos rfl]
    rfl
  · rw [getSeg_setSeg_ne _ _ _ _ hy, if_neg hy]

theorem runPoint_skip (op : Nat) (f : Nat → PlainSeg → Option (PlainSeg × Bool))
    (appIds : List Nat) (sid pid : Nat) (st : AptaState) (hs : HSeg) (d : PointData)
    (hget : getSeg st.holder sid = some hs) (hfd : Seg.find? hs.seg pid = some d)
    (hle : op ≤ d.version) :
    runPoint op f appIds sid st pid = some { st with applied := st.applied ++ [pid] } := by
  unfold runPoint
  rw [hget]
  dsimp only
  unfold Seg.point_version
  rw [hfd, Option.map_some']
  dsimp only
  rw [if_pos hle]

theorem runPoint_apply_eq (op : Nat) (f : Nat → PlainSeg → Option (PlainSeg × Bool))
    (appIds : List Nat) (sid pid : Nat) (st : AptaState) (hs : HSeg) (d : PointData)
    (hget : getSeg st.holder sid = some hs) (hfd : Seg.find? hs.seg pid = some d)
    (hlt : d.version < op) :
    runPoint op f appIds sid st pid = applyBranch op f appIds sid st pid hs := by
  unfold runPoint
  rw [hget]
  dsimp only
  unfold Seg.point_version
  rw [hfd, Option.map_some']
  dsimp only
  rw [if_neg (Nat.not_le.mpr hlt)]

theorem runPoint_apply_eq_absent (op : Nat) (f : Nat → PlainSeg → Option (PlainSeg × Bool))
    (appIds : List Nat) (sid pid : Nat) (st : AptaState) (hs : HSeg)
    (hget : getSeg st.holder sid = some hs) (hfd : Seg.find? hs.seg pid = none) :
    runPoint op f appIds sid st pid = applyBranch op f appIds sid st pid hs := by
  unfold runPoint
  rw [hget]
  dsimp only
  unfold Seg.point_version
  rw [hfd, Option.map_none']

theorem runPoint_frame (op : Nat) (f : Nat → PlainSeg → Option (PlainSeg × Bool))
    (appIds : List Nat) (sid pid q : Nat) (st : AptaState)
    (hq : q ≠ pid)
    (hf_frame : ∀ q2 s s2 b, f q2 s = some (s2, b) →
      ∀ x, x ≠ q2 → Seg.find? s2 x = Seg.find? s x) :
    runPoint op f appIds sid st q = none ∨
    ∃ st2, runPoint op f appIds sid st q = some st2 ∧
      st2.holder.map (·.1) = st.holder.map (·.1) ∧
      (∀ x, flagAt st2.holder x = flagAt st.holder x) ∧
      (∀ x, pidAt pid st2.holder x = pidAt pid st.holder x) ∧
      callsFor pid st2 = callsFor pid st ∧
      (∀ c, c ∈ st.calls → c ∈ st2.calls) := by
  have happly : ∀ hs, getSeg st.holder sid = some hs →
      (applyBranch op f appIds sid st q hs = none ∨
      ∃ st2, applyBranch op f appIds sid st q hs = some st2 ∧
        st2.holder.map (·.1) = st.holder.map (·.1) ∧
        (∀ x, flagAt st2.holder x = flagAt st.holder x) ∧
        (∀ x, pidAt pid st2.holder x = pidAt pid st.holder x) ∧
        callsFor pid st2 = callsFor pid st ∧
        (∀ c, c ∈ st.calls → c ∈ st2.calls)) := by
    intro hs hget
    have hex2 : (getSeg st.holder sid).isSome = true := by rw [hget]; rfl
    unfold applyBranch
    by_cases hflag : hs.appendable = true
    · rw [if_pos hflag]
      cases hfq : f q hs.seg with
      | none => exact Or.inl rfl
      | some x =>
        dsimp only
        refine Or.inr ⟨_, rfl, ?_, ?_, ?_, ?_, ?_⟩
        · exact keys_setSeg _ _ _
        · intro y
          rw [flagAt_setSeg _ _ _ hex2]
          by_cases hy : y = sid
          · subst hy
            rw [if_pos rfl]
            unfold flagAt
            rw [hget]
            rfl
          · rw [if_neg hy]
        · intro y
          rw [pidAt_setSeg _ _ _ _ hex2]
          by_cases hy : y = sid
          · subst hy
            rw [if_pos rfl]
            unfold pidAt
            rw [hget]
            have hfr := hf_frame q hs.seg x.1 x.2 (by rw [hfq]) pid (Ne.symm hq)
            rw [hfr]
            rfl
          · rw [if_neg hy]
        · exact filterCalls_append_ne st.calls q sid pid hq
        · intro c hc
          exact List.mem_append_left _ hc
    · rw [if_neg hflag]
      cases haloha : appIds.find? (fun tid => (getSeg st.holder tid).isSome) with
      | none => exact Or.inl rfl
      | some tid =>
        dsimp only
        cases hgt : getSeg st.holder tid with
        | none => exact Or.inl rfl
        | some ths =>
          dsimp only
          cases hfsq : Seg.find? hs.seg q with
          | none => exact Or.inl rfl
          | some dq =>
            dsimp only
            cases hfq : f q (migTarget op q dq ths.seg) with
            | none => exact Or.inl rfl
            | some x =>
              dsimp only
              have hext : (getSeg st.holder tid).isSome = true := by rw [hgt]; rfl
              have hext2 : (getSeg (setSeg st.holder sid
                  ⟨hs.appendable, (Seg.delete_point op q hs.seg).1⟩) tid).isSome = true :=
                getSeg_setSeg_isSome _ _ _ _ hext hex2
              refine Or.inr ⟨_, rfl, ?_, ?_, ?_, ?_, ?_⟩
              · rw [keys_setSeg, keys_setSeg]
              · intro y
                rw [flagAt_setSeg _ _ _ hext2, flagAt_setSeg _ _ _ hex2]
                by_cases hyt : y = tid
                · subst hyt
                  rw [if_pos rfl]
                  unfold flagAt
                  rw [hgt]
                  rfl
                · rw [if_neg hyt]
                  by_cases hys : y = sid
                  · subst hys
                    rw [if_pos rfl]
                    unfold flagAt
                    rw [hget]
                    rfl
                  · rw [if_neg hys]
              · intro y
                rw [pidAt_setSeg _ _ _ _ hext2, pidAt_setSeg _ _ _ _ hex2]
                by_cases hyt : y = tid
                · subst hyt
                  rw [if_pos rfl]
                  unfold pidAt
                  rw [hgt]
                  have hfr := hf_frame q (migTarget op q dq ths.seg) x.1 x.2
                    (by rw [hfq]) pid (Ne.symm hq)
                  have hmig : Seg.find? (migTarget op q dq ths.seg) pid =
                      Seg.find? ths.seg pid := by
                    unfold migTarget Seg.set_full_payload
                    rw [SegLemmas.find?_guardedSet_ne _ _ _ _ _ (Ne.symm hq),
                      SegLemmas.find?_upsert_ne _ _ _ _ _ (Ne.symm hq)]
                  rw [hfr, hmig]
                  rfl
                · rw [if_neg hyt]
                  by_cases hys : y = sid
                  · subst hys
                    rw [if_pos rfl]
                    unfold pidAt
                    rw [hget]
                    rw [SegLemmas.find?_delete_ne _ _ _ _ (Ne.symm hq)]
                    rfl
                  · rw [if_neg hys]
              · exact filterCalls_append_ne st.calls q tid pid hq
              · intro c hc
                exact List.mem_append_left _ hc
  unfold runPoint
  cases hget : getSeg st.holder sid with
  | none => exact Or.inl rfl
  | some hs =>
    dsimp only
    cases hpv : Seg.point_version hs.seg q with
    | none => exact happly hs hget
    | some pv =>
      dsimp only
      by_cases hle : op ≤ pv
      · rw [if_pos hle]
        exact Or.inr ⟨_, rfl, rfl, fun x => rfl, fun x => rfl, rfl, fun c hc => hc⟩
      · rw [if_neg hle]
        exact happly hs hget

end HolderLemmas2

/-- Case B of the apply_points_to_appendable invariant for a fixed point id:
f has run exactly once for pid, every surviving copy of pid carries version
at least op, and the one call went to a segment that is appendable in the
original holder. -/
def PB (op pid : Nat) (h0 : List (Nat × Holder.HSeg)) (st : Holder.AptaState) : Prop :=
  st.holder.map (·.1) = h0.map (·.1) ∧
  (∀ x, flagAt st.holder x = flagAt h0 x) ∧
  Settled op pid st.holder ∧
  Holder.callsFor pid st = 1 ∧
  ∃ tid, (pid, tid) ∈ st.calls ∧
    ∃ ths0, Holder.getSeg h0 tid = some ths0 ∧ ths0.appendable = true

/-- Case A of the invariant: f has not yet run for pid, which still lives in
exactly the segment sid0 with a version below op. -/
def PA (op pid sid0 : Nat) (h0 : List (Nat × Holder.HSeg)) (st : Holder.AptaState) : Prop :=
  st.holder.map (·.1) = h0.map (·.1) ∧
  (∀ x, flagAt st.holder x = flagAt h0 x) ∧
  OwnerAt op pid st.holder sid0 ∧
  Holder.callsFor pid st = 0

namespace HolderLemmas3

open Seg Holder HolderLemmas HolderLemmas2

theorem PB_of_frame (op pid : Nat) (h0 : List (Nat × HSeg)) (st1 st2 : AptaState)
    (hk : st2.holder.map (·.1) = st1.holder.map (·.1))
    (hf : ∀ x, flagAt st2.holder x = flagAt st1.holder x)
    (hp : ∀ x, pidAt pid st2.holder x = pidAt pid st1.holder x)
    (hc : callsFor pid st2 = callsFor pid st1)
    (hm : ∀ c, c ∈ st1.calls → c ∈ st2.calls)
    (h1 : PB op pid h0 st1) : PB op pid h0 st2 := by
  obtain ⟨hk1, hf1, hs1, hc1, tid, hmem, hext⟩ := h1
  exact ⟨hk.trans hk1, fun x => (hf x).trans (hf1 x),
    settled_of_pidAt_eq _ _ _ _ hp hs1, hc.trans hc1, tid, hm _ hmem, hext⟩

theorem PA_of_frame (op pid sid0 : Nat) (h0 : List (Nat × HSeg)) (st1 st2 : AptaState)
    (hk : st2.holder.map (·.1) = st1.holder.map (·.1))
    (hf : ∀ x, flagAt st2.holder x = flagAt st1.holder x)
    (hp : ∀ x, pidAt pid st2.holder x = pidAt pid st1.holder x)
    (hc : callsFor pid st2 = callsFor pid st1)
    (h1 : PA op pid sid0 h0 st1) : PA op pid sid0 h0 st2 := by
  obtain ⟨hk1, hf1, ho1, hc1⟩ := h1
  exact ⟨hk.trans hk1, fun x => (hf x).trans (hf1 x),
    owner_of_pidAt_eq _ _ _ _ _ hp ho1, hc.trans hc1⟩

theorem runPoint_pid_owner (op : Nat) (f : Nat → PlainSeg → Option (PlainSeg × Bool))
    (appIds : List Nat) (pid sid0 : Nat) (h0 : List (Nat × HSeg)) (st : AptaState)
    (hf_ver : ∀ s s2 b, f pid s = some (s2, b) →
      Seg.find? s2 pid = none ∨ ∃ d2, Seg.find? s2 pid = some d2 ∧ op ≤ d2.version)
    (happIds : ∀ tid, tid ∈ appIds →
      ∃ ths0, getSeg h0 tid = some ths0 ∧ ths0.appendable = true)
    (hkeys : st.holder.map (·.1) = h0.map (·.1))
    (hkflags : ∀ x, flagAt st.holder x = flagAt h0 x)
    (ho : OwnerAt op pid st.holder sid0)
    (hc0 : callsFor pid st = 0) :
    runPoint op f appIds sid0 st pid = none ∨
    ∃ st2, runPoint op f appIds sid0 st pid = some st2 ∧ PB op pid h0 st2 := by
  obtain ⟨hs, d, hget, hfd, hlt, huniq⟩ := ho
  have hex2 : (getSeg st.holder sid0).isSome = true := by rw [hget]; rfl
  rw [runPoint_apply_eq op f appIds sid0 pid st hs d hget hfd hlt]
  unfold applyBranch
  by_cases hflag : hs.appendable = true
  · rw [if_pos hflag]
    cases hfq : f pid hs.seg with
    | none => exact Or.inl rfl
    | some x =>
      dsimp only
      refine Or.inr ⟨_, rfl, ?_, ?_, ?_, ?_, ?_⟩
      · rw [keys_setSeg]
        exact hkeys
      · intro y
        rw [flagAt_setSeg _ _ _ hex2]
        by_cases hy : y = sid0
        · subst hy
          rw [if_pos rfl, ← hkflags y]
          unfold flagAt
          rw [hget]
          rfl
        · rw [if_neg hy]
          exact hkflags y
      · intro y hsy hgy
        by_cases hy : y = sid0
        · subst hy
          rw [getSeg_setSeg_self _ _ _ hex2] at hgy
          have hy2 : hsy = ⟨hs.appendable, x.1⟩ := by simpa using hgy.symm
          subst hy2
          exact hf_ver hs.seg x.1 x.2 (by rw [hfq])
        · rw [getSeg_setSeg_ne _ _ _ _ hy] at hgy
          exact Or.inl (huniq y hsy hgy hy)
      · show ((st.calls ++ [(pid, sid0)]).filter (fun c => c.1 == pid)).length = 1
        rw [filterCalls_append_self]
        unfold callsFor at hc0
        rw [hc0]
      · refine ⟨sid0, List.mem_append_right _ (by simp), ?_⟩
        have hfl := hkflags sid0
        unfold flagAt at hfl
        rw [hget] at hfl
        cases hg0 : getSeg h0 sid0 with
        | none => rw [hg0] at hfl; exact nomatch hfl
        | some ths0 =>
          rw [hg0] at hfl
          refine ⟨ths0, rfl, ?_⟩
          have : hs.appendable = ths0.appendable := by simpa using hfl
          rw [← this]
          exact hflag
  · rw [if_neg hflag]
    cases haloha : appIds.find? (fun tid => (getSeg st.holder tid).isSome) with
    | none => exact Or.inl rfl
    | some tid =>
      dsimp only
      cases hgt : getSeg st.holder tid with
      | none => exact Or.inl rfl
      | some ths =>
        dsimp only
        rw [hfd]
        dsimp only
        have htid_mem : tid ∈ appIds := List.mem_of_find?_eq_some haloha
        obtain ⟨ths0, hg0, hfl0⟩ := happIds tid htid_mem
        have hthsflag : ths.appendable = true := by
          have hfl := hkflags tid
          unfold flagAt at hfl
          rw [hgt, hg0] at hfl
          have : ths.appendable = ths0.appendable := by simpa using hfl
          rw [this]
          exact hfl0
        have htid_ne : tid ≠ sid0 := by
          intro heq
          subst heq
          rw [hget] at hgt
          have : hs = ths := by simpa using hgt
          rw [this, hthsflag] at hflag
          exact hflag rfl
        have hnp : Seg.find? ths.seg pid = none := huniq tid ths hgt htid_ne
        cases hfq : f pid (migTarget op pid d ths.seg) with
        | none => exact Or.inl rfl
        | some x =>
          dsimp only
          have hext : (getSeg st.holder tid).isSome = true := by rw [hgt]; rfl
          have hext2 : (getSeg (setSeg st.holder sid0
              ⟨hs.appendable, (Seg.delete_point op pid hs.seg).1⟩) tid).isSome = true :=
            getSeg_setSeg_isSome _ _ _ _ hext hex2
          refine Or.inr ⟨_, rfl, ?_, ?_, ?_, ?_, ?_⟩
          · rw [keys_setSeg, keys_setSeg]
            exact hkeys
          · intro y
            rw [flagAt_setSeg _ _ _ hext2, flagAt_setSeg _ _ _ hex2]
            by_cases hyt : y = tid
            · subst hyt
              rw [if_pos rfl, ← hkflags y]
              unfold flagAt
              rw [hgt]
              rfl
            · rw [if_neg hyt]
              by_cases hys : y = sid0
              · subst hys
                rw [if_pos rfl, ← hkflags y]
                unfold flagAt
                rw [hget]
                rfl
              · rw [if_neg hys]
                exact hkflags y
          · intro y hsy hgy
            by_cases hyt : y = tid
            · subst hyt
              rw [getSeg_setSeg_self _ _ _ hext2] at hgy
              have hy2 : hsy = ⟨ths.appendable, x.1⟩ := by simpa using hgy.symm
              subst hy2
              exact hf_ver _ x.1 x.2 (by rw [hfq])
            · rw [getSeg_setSeg_ne _ _ _ _ hyt] at hgy
              by_cases hys : y = sid0
              · subst hys
                rw [getSeg_setSeg_self _ _ _ hex2] at hgy
                have hy2 : hsy = ⟨hs.appendable, (Seg.delete_point op pid hs.seg).1⟩ := by
                  simpa using hgy.symm
                subst hy2
                exact Or.inl (SegLemmas.find?_delete_self op pid hs.seg d hfd
                  (Nat.lt_asymm hlt))
              · rw [getSeg_setSeg_ne _ _ _ _ hys] at hgy
                exact Or.inl (huniq y hsy hgy hys)
          · show ((st.calls ++ [(pid, tid)]).filter (fun c => c.1 == pid)).length = 1
            rw [filterCalls_append_self]
            unfold callsFor at hc0
            rw [hc0]
          · exact ⟨tid, List.mem_append_right _ (by simp), ths0, hg0, hfl0⟩

theorem runSegment_PB (op pid : Nat) (h0 : List (Nat × HSeg)) (ids : List Nat)
    (f : Nat → PlainSeg → Option (PlainSeg × Bool)) (appIds : List Nat)
    (st : AptaState) (sid : Nat)
    (hf_frame : ∀ q2 s s2 b, f q2 s = some (s2, b) →
      ∀ x, x ≠ q2 → Seg.find? s2 x = Seg.find? s x)
    (hst : PB op pid h0 st) :
    runSegment op ids f appIds st sid = none ∨
    ∃ st2, runSegment op ids f appIds st sid = some st2 ∧ PB op pid h0 st2 := by
  unfold runSegment
  cases hget : getSeg st.holder sid with
  | none => exact Or.inr ⟨st, rfl, hst⟩
  | some hs =>
    dsimp only
    have hinit : pid ∈ ids.filter (fun p => Seg.has_point hs.seg p) →
        ∃ hs2 d2, getSeg st.holder sid = some hs2 ∧
          Seg.find? hs2.seg pid = some d2 ∧ op ≤ d2.version := by
      intro hm
      have hhp : Seg.has_point hs.seg pid = true := (List.mem_filter.mp hm).2
      rcases hst.2.2.1 sid hs hget with hn | ⟨d2, hfd2, hle2⟩
      · unfold Seg.has_point at hhp
        rw [hn] at hhp
        exact nomatch hhp
      · exact ⟨hs, d2, hget, hfd2, hle2⟩
    have hstep : ∀ st1 q, q ∈ ids.filter (fun p => Seg.has_point hs.seg p) →
        (PB op pid h0 st1 ∧
          (pid ∈ ids.filter (fun p => Seg.has_point hs.seg p) →
            ∃ hs2 d2, getSeg st1.holder sid = some hs2 ∧
              Seg.find? hs2.seg pid = some d2 ∧ op ≤ d2.version)) →
        runPoint op f appIds sid st1 q = none ∨
        ∃ st2, runPoint op f appIds sid st1 q = some st2 ∧
          (PB op pid h0 st2 ∧
            (pid ∈ ids.filter (fun p => Seg.has_point hs.seg p) →
              ∃ hs2 d2, getSeg st2.holder sid = some hs2 ∧
                Seg.find? hs2.seg pid = some d2 ∧ op ≤ d2.version)) := by
      rintro st1 q hqm ⟨hPB1, hcond1⟩
      by_cases hqp : q = pid
      · subst hqp
        obtain ⟨hs2, d2, hget2, hfd2, hle2⟩ := hcond1 hqm
        rw [runPoint_skip op f appIds sid q st1 hs2 d2 hget2 hfd2 hle2]
        refine Or.inr ⟨_, rfl, ?_, ?_⟩
        · obtain ⟨a, b, c, d3, e⟩ := hPB1
          exact ⟨a, b, c, d3, e⟩
        · intro _
          exact ⟨hs2, d2, hget2, hfd2, hle2⟩
      · rcases runPoint_frame op f appIds sid pid q st1 hqp hf_frame with
          hn | ⟨st2, hsome, hk, hfl, hpd, hcl, hmm⟩
        · exact Or.inl hn
        · refine Or.inr ⟨st2, hsome,
            PB_of_frame op pid h0 st1 st2 hk hfl hpd hcl hmm hPB1, ?_⟩
          intro hm
          obtain ⟨hs2, d2, hget2, hfd2, hle2⟩ := hcond1 hm
          have hpe := hpd sid
          unfold pidAt at hpe
          rw [hget2] at hpe
          cases hget3 : getSeg st2.holder sid with
          | none => rw [hget3] at hpe; exact nomatch hpe
          | some hs3 =>
            rw [hget3] at hpe
            have hfe : Seg.find? hs3.seg pid = Seg.find? hs2.seg pid := by simpa using hpe
            exact ⟨hs3, d2, rfl, by rw [hfe]; exact hfd2, hle2⟩
    rcases foldOpt_inv (runPoint op f appIds sid)
      (fun st2 => PB op pid h0 st2 ∧
        (pid ∈ ids.filter (fun p => Seg.has_point hs.seg p) →
          ∃ hs2 d2, getSeg st2.holder sid = some hs2 ∧
            Seg.find? hs2.seg pid = some d2 ∧ op ≤ d2.version))
      (ids.filter (fun p => Seg.has_point hs.seg p)) hstep st ⟨hst, hinit⟩ with
      hnone | ⟨st2, hsome, hP, _⟩
    · exact Or.inl hnone
    · exact Or.inr ⟨st2, hsome, hP⟩

theorem runSegment_PA (op pid sid0 : Nat) (h0 : List (Nat × HSeg)) (ids : List Nat)
    (f : Nat → PlainSeg → Option (PlainSeg × Bool)) (appIds : List Nat)
    (st : AptaState) (sid : Nat) (hne : sid ≠ sid0)
    (hf_frame : ∀ q2 s s2 b, f q2 s = some (s2, b) →
      ∀ x, x ≠ q2 → Seg.find? s2 x = Seg.find? s x)
    (hst : PA op pid sid0 h0 st) :
    runSegment op ids f appIds st sid = none ∨
    ∃ st2, runSegment op ids f appIds st sid = some st2 ∧ PA op pid sid0 h0 st2 := by
  unfold runSegment
  cases hget : getSeg st.holder sid with
  | none => exact Or.inr ⟨st, rfl, hst⟩
  | some hs =>
    dsimp only
    have hnp : Seg.find? hs.seg pid = none := by
      obtain ⟨_, _, ⟨hs0, d0, hg0, _, _, hu⟩, _⟩ := hst
      exact hu sid hs hget hne
    have hpid_not : pid ∉ ids.filter (fun p => Seg.has_point hs.seg p) := by
      intro hm
      have hhp := (List.mem_filter.mp hm).2
      unfold Seg.has_point at hhp
      rw [hnp] at hhp
      exact nomatch hhp
    have hstep : ∀ st1 q, q ∈ ids.filter (fun p => Seg.has_point hs.seg p) →
        PA op pid sid0 h0 st1 →
        runPoint op f appIds sid st1 q = none ∨
        ∃ st2, runPoint op f appIds sid st1 q = some st2 ∧ PA op pid sid0 h0 st2 := by
      intro st1 q hqm hP1
      have hqp : q ≠ pid := fun he => hpid_not (he ▸ hqm)
      rcases runPoint_frame op f appIds sid pid q st1 hqp hf_frame with
        hn | ⟨st2, hsome, hk, hfl, hpd, hcl, _⟩
      · exact Or.inl hn
      · exact Or.inr ⟨st2, hsome, PA_of_frame _ _ _ _ _ _ hk hfl hpd hcl hP1⟩
    exact foldOpt_inv (runPoint op f appIds sid) (PA op pid sid0 h0)
      (ids.filter (fun p => Seg.has_point hs.seg p)) hstep st hst

theorem runSegment_owner (op pid sid0 : Nat) (h0 : List (Nat × HSeg)) (ids : List Nat)
    (f : Nat → PlainSeg → Option (PlainSeg × Bool)) (appIds : List Nat)
    (st : AptaState)
    (hpid_ids : pid ∈ ids) (hids_nd : ids.Nodup)
    (hf_frame : ∀ q2 s s2 b, f q2 s = some (s2, b) →
      ∀ x, x ≠ q2 → Seg.find? s2 x = Seg.find? s x)
    (hf_ver : ∀ s s2 b, f pid s = some (s2, b) →
      Seg.find? s2 pid = none ∨ ∃ d2, Seg.find? s2 pid = some d2 ∧ op ≤ d2.version)
    (happIds : ∀ tid, tid ∈ appIds →
      ∃ ths0, getSeg h0 tid = some ths0 ∧ ths0.appendable = true)
    (hst : PA op pid sid0 h0 st) :
    runSegment op ids f appIds st sid0 = none ∨
    ∃ st2, runSegment op ids f appIds st sid0 = some st2 ∧ PB op pid h0 st2 := by
  obtain ⟨hkeys, hflags, ho, hc0⟩ := hst
  obtain ⟨hs, d, hget, hfd, hlt, huniq⟩ := ho
  unfold runSegment
  rw [hget]
  dsimp only
  have hpmem : pid ∈ ids.filter (fun p => Seg.has_point hs.seg p) :=
    List.mem_filter.mpr ⟨hpid_ids, ProxyLemmas.has_point_of_find?_eq hs.seg pid d hfd⟩
  obtain ⟨l1, l2, hsplit⟩ := List.append_of_mem hpmem
  have hnd : (ids.filter (fun p => Seg.has_point hs.seg p)).Nodup := hids_nd.filter _
  rw [hsplit] at hnd
  rw [hsplit]
  obtain ⟨hnd1, hnd2, hdisj⟩ := List.nodup_append.mp hnd
  have hpl1 : pid ∉ l1 := fun hm => hdisj hm (List.mem_cons_self _ _)
  have hpl2 : pid ∉ l2 := (List.nodup_cons.mp hnd2).1
  rw [foldOpt_append]
  have hstep1 : ∀ st1 q, q ∈ l1 → PA op pid sid0 h0 st1 →
      runPoint op f appIds sid0 st1 q = none ∨
      ∃ st2, runPoint op f appIds sid0 st1 q = some st2 ∧ PA op pid sid0 h0 st2 := by
    intro st1 q hqm hP1
    have hqp : q ≠ pid := fun he => hpl1 (he ▸ hqm)
    rcases runPoint_frame op f appIds sid0 pid q st1 hqp hf_frame with
      hn | ⟨st2, hsome, hk, hfl, hpd, hcl, _⟩
    · exact Or.inl hn
    · exact Or.inr ⟨st2, hsome, PA_of_frame _ _ _ _ _ _ hk hfl hpd hcl hP1⟩
  rcases foldOpt_inv (runPoint op f appIds sid0) (PA op pid sid0 h0) l1 hstep1 st
    ⟨hkeys, hflags, ⟨hs, d, hget, hfd, hlt, huniq⟩, hc0⟩ with hn1 | ⟨st1, hs1, hP1⟩
  · rw [hn1]
    exact Or.inl rfl
  · rw [hs1]
    dsimp only
    rw [foldOpt_cons]
    obtain ⟨hkeys1, hflags1, ho1, hc01⟩ := hP1
    rcases runPoint_pid_owner op f appIds pid sid0 h0 st1 hf_ver happIds
      hkeys1 hflags1 ho1 hc01 with hn2 | ⟨st2, hsome2, hPB2⟩
    · rw [hn2]
      exact Or.inl rfl
    · rw [hsome2]
      dsimp only
      have hstep2 : ∀ st3 q, q ∈ l2 → PB op pid h0 st3 →
          runPoint op f appIds sid0 st3 q = none ∨
          ∃ st4, runPoint op f appIds sid0 st3 q = some st4 ∧ PB op pid h0 st4 := by
        intro st3 q hqm hP3
        have hqp : q ≠ pid := fun he => hpl2 (he ▸ hqm)
        rcases runPoint_frame op f appIds sid0 pid q st3 hqp hf_frame with
          hn | ⟨st4, hsome, hk, hfl, hpd, hcl, hmm⟩
        · exact Or.inl hn
        · exact Or.inr ⟨st4, hsome, PB_of_frame _ _ _ _ _ hk hfl hpd hcl hmm hP3⟩
      exact foldOpt_inv (runPoint op f appIds sid0) (PB op pid h0) l2 hstep2 st2 hPB2

theorem outer_fold (op pid sid0 : Nat) (h0 : List (Nat × HSeg)) (ids : List Nat)
    (f : Nat → PlainSeg → Option (PlainSeg × Bool)) (appIds : List Nat)
    (hpid_ids : pid ∈ ids) (hids_nd : ids.Nodup)
    (hf_frame : ∀ q2 s s2 b, f q2 s = some (s2, b) →
      ∀ x, x ≠ q2 → Seg.find? s2 x = Seg.find? s x)
    (hf_ver : ∀ s s2 b, f pid s = some (s2, b) →
      Seg.find? s2 pid = none ∨ ∃ d2, Seg.find? s2 pid = some d2 ∧ op ≤ d2.version)
    (happIds : ∀ tid, tid ∈ appIds →
      ∃ ths0, getSeg h0 tid = some ths0 ∧ ths0.appendable = true) :
    ∀ sids st, ((PA op pid sid0 h0 st ∧ sid0 ∈ sids) ∨ PB op pid h0 st) →
    foldOpt (runSegment op ids f appIds) st sids = none ∨
    ∃ st2, foldOpt (runSegment op ids f appIds) st sids = some st2 ∧
      PB op pid h0 st2 := by
  intro sids
  induction sids with
  | nil =>
    intro st h
    rcases h with ⟨_, hmem⟩ | hPB
    · exact absurd hmem (List.not_mem_nil _)
    · exact Or.inr ⟨st, rfl, hPB⟩
  | cons sid rest ih =>
    intro st h
    have hstep : runSegment op ids f appIds st sid = none ∨
        ∃ st1, runSegment op ids f appIds st sid = some st1 ∧
          ((PA op pid sid0 h0 st1 ∧ sid0 ∈ rest) ∨ PB op pid h0 st1) := by
      rcases h with ⟨hPA, hmem⟩ | hPB
      · by_cases hsid : sid = sid0
        · subst hsid
          rcases runSegment_owner op pid sid h0 ids f appIds st hpid_ids hids_nd
            hf_frame hf_ver happIds hPA with hn | ⟨st1, hs1, hPB1⟩
          · exact Or.inl hn
          · exact Or.inr ⟨st1, hs1, Or.inr hPB1⟩
        · have hmem2 : sid0 ∈ rest := by
            rcases List.mem_cons.mp hmem with he | hr
            · exact absurd he.symm hsid
            · exact hr
          rcases runSegment_PA op pid sid0 h0 ids f appIds st sid hsid
            hf_frame hPA with hn | ⟨st1, hs1, hPA1⟩
          · exact Or.inl hn
          · exact Or.inr ⟨st1, hs1, Or.inl ⟨hPA1, hmem2⟩⟩
      · rcases runSegment_PB op pid h0 ids f appIds st sid hf_frame hPB with
          hn | ⟨st1, hs1, hPB1⟩
        · exact Or.inl hn
        · exact Or.inr ⟨st1, hs1, Or.inr hPB1⟩
    rw [foldOpt_cons]
    rcases hstep with hn | ⟨st1, hs1, hinv1⟩
    · rw [hn]
      exact Or.inl rfl
    · rw [hs1]
      dsimp only
      exact ih st1 hinv1

end HolderLemmas3

/-- C5 counterexample: apply_points_to_appendable over a holder with one empty
appendable segment, for an id found in no segment, finishes successfully with
an empty call trace: f ran zero times for that id and no error was returned,
so "for each id in ids either f was called exactly once or a ServiceError was
returned" fails for absent ids (ids whose point version already reaches
op_num are skipped the same way). -/
theorem apply_points_claim_false :
    Holder.apply_points_to_appendable 5 [7]
      (fun q s => some (Seg.setPoint s q ⟨5, 0, 0⟩, true))
      [(1, ⟨true, ⟨[]⟩⟩)] = some ⟨[(1, ⟨true, ⟨[]⟩⟩)], [], []⟩ := rfl

open Holder HolderLemmas HolderLemmas2 HolderLemmas3 in
/-- C5 (amended): on a holder with distinct segment ids, for a point id
listed once in ids, living in exactly one segment with a version below
op_num, and an update closure f that touches only its point and stamps it
with a version at least op_num (or removes it) — the behaviour of applying
one operation at op_num — apply_points_to_appendable either returns the
error none or finishes with f having run exactly once for that id, against a
segment that is appendable in the holder; when no appendable segment exists
the call errors; and on a non-appendable owner the migration first builds the
copy carrying op_num with the source's vectors and payload in the target,
deletes the point from the source, and hands exactly that migrated target to
f, propagating f's error. -/
theorem apply_points_to_appendable_spec (op : Nat) (ids : List Nat)
    (f : Nat → Seg.PlainSeg → Option (Seg.PlainSeg × Bool))
    (h : List (Nat × Holder.HSeg)) (pid : Nat)
    (hkeys : (h.map (·.1)).Nodup)
    (hids_nd : ids.Nodup)
    (hpid_ids : pid ∈ ids)
    (hf_frame : ∀ q s s2 b, f q s = some (s2, b) →
      ∀ x, x ≠ q → Seg.find? s2 x = Seg.find? s x)
    (hf_ver : ∀ s s2 b, f pid s = some (s2, b) →
      Seg.find? s2 pid = none ∨ ∃ d, Seg.find? s2 pid = some d ∧ op ≤ d.version)
    (howner : ∃ sid hs d, Holder.getSeg h sid = some hs ∧
      Seg.find? hs.seg pid = some d ∧ d.version < op ∧
      ∀ sid2 hs2, Holder.getSeg h sid2 = some hs2 → sid2 ≠ sid →
        Seg.find? hs2.seg pid = none) :
    (Holder.apply_points_to_appendable op ids f h = none ∨
      ∃ st, Holder.apply_points_to_appendable op ids f h = some st ∧
        Holder.callsFor pid st = 1 ∧
        ∃ tid, (pid, tid) ∈ st.calls ∧ tid ∈ Holder.appendable_ids h) ∧
    (Holder.appendable_ids h = [] →
      Holder.apply_points_to_appendable op ids f h = none) ∧
    (∀ st sid hs d tid ths,
      Holder.getSeg st.holder sid = some hs → hs.appendable = false →
      Seg.find? hs.seg pid = some d → d.version < op →
      (Holder.appendable_ids h).find?
        (fun t2 => (Holder.getSeg st.holder t2).isSome) = some tid →
      Holder.getSeg st.holder tid = some ths → Seg.has_point ths.seg pid = false →
      Seg.find? (Holder.migTarget op pid d ths.seg) pid = some ⟨op, d.vecs, d.payload⟩ ∧
      Seg.find? (Seg.delete_point op pid hs.seg).1 pid = none ∧
      Holder.runPoint op f (Holder.appendable_ids h) sid st pid =
        (match f pid (Holder.migTarget op pid d ths.seg) with
        | none => none
        | some x => some ⟨Holder.setSeg (Holder.setSeg st.holder sid
            ⟨hs.appendable, (Seg.delete_point op pid hs.seg).1⟩) tid
            ⟨ths.appendable, x.1⟩,
            st.applied ++ [pid], st.calls ++ [(pid, tid)]⟩)) := by
  have happIds : ∀ tid, tid ∈ appendable_ids h →
      ∃ ths0, getSeg h tid = some ths0 ∧ ths0.appendable = true :=
    fun tid hm => flag_of_mem_appendable_ids h hkeys tid hm
  obtain ⟨sid0, hs0, d0, hget0, hfd0, hlt0, huniq0⟩ := howner
  have hsid0_mem : sid0 ∈ h.map (·.1) := by
    refine List.mem_map.mpr ⟨(sid0, hs0), entry_of_getSeg h sid0 hs0 hget0, rfl⟩
  have hmain := outer_fold op pid sid0 h ids f (appendable_ids h)
    hpid_ids hids_nd hf_frame hf_ver happIds (h.map (·.1)) ⟨h, [], []⟩
    (Or.inl ⟨⟨rfl, fun x => rfl, ⟨hs0, d0, hget0, hfd0, hlt0, huniq0⟩, rfl⟩, hsid0_mem⟩)
  refine ⟨?_, ?_, ?_⟩
  · rcases hmain with hn | ⟨st2, hs2, hk2, hf2, hset2, hc2, tid, hmem, ths0, hg0, hfl0⟩
    · exact Or.inl hn
    · exact Or.inr ⟨st2, hs2, hc2, tid, hmem,
        mem_appendable_ids_intro h tid ths0 hg0 hfl0⟩
  · intro hempty
    rcases hmain with hn | ⟨st2, hs2, hk2, hf2, hset2, hc2, tid, hmem, ths0, hg0, hfl0⟩
    · exact hn
    · have := mem_appendable_ids_intro h tid ths0 hg0 hfl0
      rw [hempty] at this
      exact absurd this (List.not_mem_nil _)
  · intro st sid hs d tid ths hget hflag hfd hlt haloha hgt hnp
    have hnone : Seg.find? ths.seg pid = none :=
      ProxyLemmas.find?_eq_none_of_has_false ths.seg pid hnp
    refine ⟨?_, ?_, ?_⟩
    · unfold migTarget Seg.set_full_payload
      rw [SegLemmas.find?_guardedSet_self op pid _ _ ⟨op, d.vecs, 0⟩
        (SegLemmas.find?_upsert_self_new op pid d.vecs ths.seg hnone)
        (Nat.lt_irrefl op)]
    · exact SegLemmas.find?_delete_self op pid hs.seg d hfd (Nat.lt_asymm hlt)
    · rw [runPoint_apply_eq op f (appendable_ids h) sid pid st hs d hget hfd hlt]
      unfold applyBranch
      rw [if_neg (by rw [hflag]; exact fun hx => nomatch hx)]
      rw [haloha]
      dsimp only
      rw [hgt]
      dsimp only
      rw [hfd]

/-- Witness for C5: a two-segment holder whose non-appendable segment 1 owns
point 7 at version 2, appendable segment 2 empty, op_num 5, f an upsert-like
write at version 5. -/
theorem apply_points_to_appendable_spec_witness :
    Holder.apply_points_to_appendable 5 [7]
        (fun q s => some (Seg.setPoint s q ⟨5, 1, 2⟩, true))
        [(1, ⟨false, ⟨[(7, ⟨2, 3, 4⟩)]⟩⟩), (2, ⟨true, ⟨[]⟩⟩)] = none ∨
    ∃ st, Holder.apply_points_to_appendable 5 [7]
        (fun q s => some (Seg.setPoint s q ⟨5, 1, 2⟩, true))
        [(1, ⟨false, ⟨[(7, ⟨2, 3, 4⟩)]⟩⟩), (2, ⟨true, ⟨[]⟩⟩)] = some st ∧
      Holder.callsFor 7 st = 1 ∧
      ∃ tid, (7, tid) ∈ st.calls ∧
        tid ∈ Holder.appendable_ids
          [(1, ⟨false, ⟨[(7, ⟨2, 3, 4⟩)]⟩⟩), (2, ⟨true, ⟨[]⟩⟩)] := by
  refine (apply_points_to_appendable_spec 5 [7]
    (fun q s => some (Seg.setPoint s q ⟨5, 1, 2⟩, true))
    [(1, ⟨false, ⟨[(7, ⟨2, 3, 4⟩)]⟩⟩), (2, ⟨true, ⟨[]⟩⟩)] 7
    (by decide) (by decide) (by decide) ?_ ?_ ?_).1
  · intro q s s2 b hfe x hx
    have h1 : (Seg.setPoint s q ⟨5, 1, 2⟩, true) = (s2, b) := Option.some.inj hfe
    have h2 : s2 = Seg.setPoint s q ⟨5, 1, 2⟩ := (congrArg Prod.fst h1).symm
    rw [h2]
    exact SegLemmas.find?_setPoint_ne s q x ⟨5, 1, 2⟩ hx
  · intro s s2 b hfe
    have h1 : (Seg.setPoint s 7 ⟨5, 1, 2⟩, true) = (s2, b) := Option.some.inj hfe
    have h2 : s2 = Seg.setPoint s 7 ⟨5, 1, 2⟩ := (congrArg Prod.fst h1).symm
    refine Or.inr ⟨⟨5, 1, 2⟩, ?_, Nat.le_refl 5⟩
    rw [h2]
    exact SegLemmas.find?_setPoint_self s 7 ⟨5, 1, 2⟩
  · refine ⟨1, ⟨false, ⟨[(7, ⟨2, 3, 4⟩)]⟩⟩, ⟨2, 3, 4⟩, rfl, rfl, by decide, ?_⟩
    intro sid2 hs2 hg hne
    by_cases h2 : sid2 = 2
    · subst h2
      have h3 : some (⟨true, ⟨[]⟩⟩ : Holder.HSeg) = some hs2 := hg
      have h4 : hs2 = ⟨true, ⟨[]⟩⟩ := (Option.some.inj h3).symm
      rw [h4]
      rfl
    · exfalso
      have hnone : Holder.getSeg
          [(1, (⟨false, ⟨[(7, ⟨2, 3, 4⟩)]⟩⟩ : Holder.HSeg)), (2, ⟨true, ⟨[]⟩⟩)] sid2 =
          none := by
        unfold Holder.getSeg
        rw [List.find?_cons_of_neg _ (by simp; exact fun he => hne he.symm),
          List.find?_cons_of_neg _ (by simp; exact fun he => h2 he.symm),
          List.find?_nil]
        rfl
      rw [hnone] at hg
      exact nomatch hg
